import Mathlib

/-!
Verification of the evidence-pipeline core of the job-agent repository.

The Python sources under `src/` are shallowly embedded as Lean functions:

* `core/ids.py` (`normalize_url`, `slugify`) together with the parts of
  CPython's `urllib.parse` (`urlparse`, `urlunparse`, `parse_qs`,
  `unquote_plus`) that those functions call, modelled at character level;
* `collectors/http_client.py` (`HttpClient.fetch`, `_fetch_with_retry`)
  with the network modelled as a script of attempt outcomes;
* `collectors/planner.py` (`plan_sources`, `FetchTask.from_source_config`);
* `core/context.py` (`RunContext.complete_stage`) with timestamps
  abstracted to integers;
* `parsing/llm.py` (`extract_company_profile`) with the completion call
  and JSON decoding modelled as explicit inputs;
* `parsing/parser.py` (`parse_and_normalize`) and
  `parsing/normalizers.py` (`extract_domain`, `make_company_id`).

Strings are processed as `List Char`; `String` wrappers are provided where
the Python signature takes `str`.  The Unicode-specific behaviour of
CPython (`str.lower`, `\w` in regexes, IDNA checks in `_checknetloc`,
bracketed IPv6 hosts) is modelled for ASCII input only, which is the scope
of every theorem below.
-/

set_option maxHeartbeats 1000000
set_option linter.unnecessarySeqFocus false

namespace JobAgent

/-! ## Character and list utilities shared by the embedded functions -/

/-- ASCII lowercase of one character, mirroring Python `str.lower` on
ASCII (codes 65–90 shift to 97–122). -/
def asciiLowerChar (c : Char) : Char :=
  if 65 ≤ c.toNat ∧ c.toNat ≤ 90 then Char.ofNat (c.toNat + 32) else c

/-- ASCII lowercase of a character list. -/
def asciiLower (l : List Char) : List Char := l.map asciiLowerChar

/-- Split a list at the first character satisfying `p`: returns the prefix
before the match and the remainder starting at the matching character
(`([], l)` style of Python `partition` / `find`). -/
def takeUntil (p : Char → Bool) : List Char → List Char × List Char
  | [] => ([], [])
  | c :: rest =>
    if p c then ([], c :: rest)
    else
      let r := takeUntil p rest
      (c :: r.1, r.2)

/-- Split on every occurrence of `sep`, mirroring Python `str.split(sep)`:
the result is always nonempty and has one entry per separator plus one. -/
def splitSep (sep : Char) : List Char → List (List Char)
  | [] => [[]]
  | c :: rest =>
    match splitSep sep rest with
    | [] => [[]]
    | h :: t => if c = sep then [] :: h :: t else (c :: h) :: t

/-- Join with a separator, mirroring Python `sep.join(...)`. -/
def joinSep (sep : Char) : List (List Char) → List Char
  | [] => []
  | [x] => x
  | x :: y :: t => x ++ sep :: joinSep sep (y :: t)

/-- Drop all trailing occurrences of `ch`, mirroring Python `str.rstrip(ch)`. -/
def rstripChar (ch : Char) (l : List Char) : List Char :=
  (l.reverse.dropWhile (· = ch)).reverse

/-- Does the list end with the given character? -/
def endsWithChar (ch : Char) (l : List Char) : Bool :=
  match l.getLast? with
  | some c => c = ch
  | none => false

/-! ## CPython `urllib.parse` model

Only the code paths exercised by `core/ids.py` and
`parsing/normalizers.py` are modelled: `urlparse` / `urlunparse` with the
default arguments, `parse_qs(..., keep_blank_values=True)` and the
`unquote` they rely on.  The model follows CPython 3.11+ (`urlsplit`
left-strips WHATWG C0-control/space characters and removes tab, CR and LF
anywhere; `_splitparams` separates `;params` from the last path segment).
The `ValueError` raised for unbalanced `[`/`]` in a netloc and the IDNA
check of `_checknetloc` are not modelled; theorems restrict to inputs
without brackets and with ASCII characters. -/

/-- Python `scheme_chars`: letters, digits and `+`, `-`, `.`. -/
def schemeChar (c : Char) : Bool :=
  c.isAlpha || c.isDigit || c = '+' || c = '-' || c = '.'

/-- WHATWG C0-control-or-space class used by `urlsplit`'s lstrip. -/
def isC0OrSpace (c : Char) : Bool := c.toNat ≤ 0x20

/-- The `_UNSAFE_URL_BYTES_TO_REMOVE` of `urllib.parse`: tab, CR, LF. -/
def isUnsafeUrlByte (c : Char) : Bool := c = '\t' || c = '\r' || c = '\n'

/-- The cleanup `urlsplit` applies before parsing: left-strip
C0-control/space characters, then remove every tab, CR and LF. -/
def urlClean (l : List Char) : List Char :=
  (l.dropWhile isC0OrSpace).filter (fun c => ¬ isUnsafeUrlByte c)

/-- Scheme detection of `urlsplit`: if the text before the first `:` is a
nonempty run of scheme characters starting with a letter, it is the scheme
(returned lowercased) and the rest follows the colon. -/
def detectScheme (u : List Char) : List Char × List Char :=
  match takeUntil (· = ':') u with
  | (pre, _ :: rest) =>
    match pre with
    | [] => ([], u)
    | c0 :: _ =>
      if c0.isAlpha ∧ pre.all schemeChar then (asciiLower pre, rest) else ([], u)
  | (_, []) => ([], u)

/-- Model of `_splitnetloc`: the netloc runs from after `//` to the next `/`, `?`
or `#` (or the end). -/
def splitNetloc (u : List Char) : List Char × List Char :=
  takeUntil (fun c => c = '/' || c = '?' || c = '#') u

/-- Result record of `urlsplit` (the `params` component of `urlparse` is
split off separately by `pyUrlparse`). -/
structure UrlSplitResult where
  scheme : List Char := []
  netloc : List Char := []
  path : List Char := []
  query : List Char := []
  fragment : List Char := []
deriving Repr, DecidableEq

/-- The netloc step of `urlsplit`: `_splitnetloc` runs only when the text
after the scheme starts with `//`. -/
def netlocStep (u : List Char) : List Char × List Char :=
  match u with
  | '/' :: '/' :: rest => splitNetloc rest
  | _ => ([], u)

/-- Python `url.split(sep, 1)`: the text before the first separator and
the text after it (empty when the separator is absent). -/
def sepSplit (sep : Char) (u : List Char) : List Char × List Char :=
  match takeUntil (· = sep) u with
  | (before, _ :: rest) => (before, rest)
  | (before, []) => (before, [])

/-- CPython `urllib.parse.urlsplit` with default arguments. -/
def pyUrlsplit (url : List Char) : UrlSplitResult :=
  let url := urlClean url
  let (scheme, url) := detectScheme url
  let (netloc, url) := netlocStep url
  let (url, fragment) := sepSplit '#' url
  let (url, query) := sepSplit '?' url
  { scheme := scheme, netloc := netloc, path := url, query := query, fragment := fragment }

/-- Split a list just after its last `/`: returns
`some (prefixEndingInSlash, lastSegment)` or `none` when there is no `/`. -/
def splitAfterLastSlash (l : List Char) : Option (List Char × List Char) :=
  match takeUntil (· = '/') l.reverse with
  | (revSeg, _ :: revPre) => some ((('/' :: revPre).reverse).dropLast ++ ['/'], revSeg.reverse)
  | (_, []) => none

/-- CPython `_splitparams`: split `;params` off the last path segment (or
off the whole path when it holds no `/`). -/
def splitparams (path : List Char) : List Char × List Char :=
  match splitAfterLastSlash path with
  | some (pre, lastSeg) =>
    match takeUntil (· = ';') lastSeg with
    | (before, _ :: ps) => (pre ++ before, ps)
    | (_, []) => (path, [])
  | none =>
    match takeUntil (· = ';') path with
    | (before, _ :: ps) => (before, ps)
    | (_, []) => (path, [])

/-- Result record of `urlparse`. -/
structure UrlParseResult where
  scheme : List Char := []
  netloc : List Char := []
  path : List Char := []
  params : List Char := []
  query : List Char := []
  fragment : List Char := []
deriving Repr, DecidableEq

/-- CPython `uses_params`. -/
def usesParams : List (List Char) :=
  ["".data, "ftp".data, "hdl".data, "prospero".data, "http".data, "imap".data,
    "https".data, "shttp".data, "rtsp".data, "rtsps".data, "rtspu".data,
    "sip".data, "sips".data, "mms".data, "sftp".data, "tel".data]

/-- CPython `urllib.parse.urlparse`: `urlsplit` plus the params split,
which only runs for schemes in `uses_params` when the path contains `;`. -/
def pyUrlparse (url : List Char) : UrlParseResult :=
  let s := pyUrlsplit url
  let (path, params) :=
    if s.scheme ∈ usesParams ∧ ';' ∈ s.path then splitparams s.path
    else (s.path, [])
  { scheme := s.scheme, netloc := s.netloc, path := path, params := params,
    query := s.query, fragment := s.fragment }

/-- CPython `uses_netloc`. -/
def usesNetloc : List (List Char) :=
  ["".data, "ftp".data, "http".data, "gopher".data, "nntp".data, "telnet".data,
    "imap".data, "wais".data, "file".data, "mms".data, "https".data,
    "shttp".data, "snews".data, "prospero".data, "rtsp".data, "rtsps".data,
    "rtspu".data, "rsync".data, "svn".data, "svn+ssh".data, "sftp".data,
    "nfs".data, "git".data, "git+ssh".data, "ws".data, "wss".data]

/-- CPython `urlunsplit`. -/
def pyUrlunsplit (scheme netloc path query fragment : List Char) : List Char :=
  let url := path
  let url :=
    if netloc ≠ [] ∨ (scheme ≠ [] ∧ scheme ∈ usesNetloc ∧ url.take 2 ≠ ['/', '/']) then
      (if url ≠ [] ∧ url.take 1 ≠ ['/'] then '/' :: url else url) |>
        fun u => '/' :: '/' :: (netloc ++ u)
    else url
  let url := if scheme ≠ [] then scheme ++ ':' :: url else url
  let url := if query ≠ [] then url ++ '?' :: query else url
  if fragment ≠ [] then url ++ '#' :: fragment else url

/-- CPython `urlunparse`: merge params back into the path, then unsplit. -/
def pyUrlunparse (scheme netloc path params query fragment : List Char) : List Char :=
  let path := if params ≠ [] then path ++ ';' :: params else path
  pyUrlunsplit scheme netloc path query fragment

/-! ### `unquote_plus` and `parse_qs` -/

/-- Hex digit value, as accepted by percent escapes. -/
def hexVal (c : Char) : Option Nat :=
  if '0' ≤ c ∧ c ≤ '9' then some (c.toNat - '0'.toNat)
  else if 'a' ≤ c ∧ c ≤ 'f' then some (c.toNat - 'a'.toNat + 10)
  else if 'A' ≤ c ∧ c ≤ 'F' then some (c.toNat - 'A'.toNat + 10)
  else none

/-- UTF-8 encoding of one character. -/
def utf8EncodeChar (c : Char) : List Nat :=
  let n := c.toNat
  if n < 0x80 then [n]
  else if n < 0x800 then [0xC0 + n / 0x40, 0x80 + n % 0x40]
  else if n < 0x10000 then
    [0xE0 + n / 0x1000, 0x80 + n / 0x40 % 0x40, 0x80 + n % 0x40]
  else
    [0xF0 + n / 0x40000, 0x80 + n / 0x1000 % 0x40, 0x80 + n / 0x40 % 0x40,
      0x80 + n % 0x40]

/-- Worker for `pctDecodeBytes`; each step consumes at least one
character, so a fuel of the input length suffices. -/
def pctDecodeGo : Nat → List Char → List Nat
  | 0, _ => []
  | _ + 1, [] => []
  | fuel + 1, c :: rest =>
    if c = '%' then
      match rest with
      | h1 :: h2 :: rest2 =>
        match hexVal h1, hexVal h2 with
        | some a, some b => (16 * a + b) :: pctDecodeGo fuel rest2
        | _, _ => utf8EncodeChar '%' ++ pctDecodeGo fuel rest
      | _ => utf8EncodeChar '%' ++ pctDecodeGo fuel rest
    else utf8EncodeChar c ++ pctDecodeGo fuel rest

/-- Percent-unquoting to bytes (`unquote_to_bytes`): a `%` followed by two
hex digits contributes one byte; an invalid escape keeps the `%` literal;
everything else contributes its UTF-8 bytes. -/
def pctDecodeBytes (l : List Char) : List Nat := pctDecodeGo l.length l

/-- Is `b` a UTF-8 continuation byte? -/
def contByte (b : Nat) : Bool := 0x80 ≤ b ∧ b ≤ 0xBF

/-- Worker for `utf8Decode`; the fuel is an upper bound on the number of
decoding steps, each of which consumes at least one byte. -/
def utf8DecodeGo : Nat → List Nat → List Char
  | 0, _ => []
  | _ + 1, [] => []
  | fuel + 1, b1 :: rest =>
    if b1 < 0x80 then Char.ofNat b1 :: utf8DecodeGo fuel rest
    else if 0xC2 ≤ b1 ∧ b1 ≤ 0xDF then
      match rest with
      | b2 :: rest2 =>
        if contByte b2 then
          Char.ofNat ((b1 - 0xC0) * 0x40 + (b2 - 0x80)) :: utf8DecodeGo fuel rest2
        else '�' :: utf8DecodeGo fuel rest
      | [] => ['�']
    else if 0xE0 ≤ b1 ∧ b1 ≤ 0xEF then
      match rest with
      | b2 :: b3 :: rest3 =>
        if contByte b2 ∧ contByte b3 ∧
            (b1 ≠ 0xE0 ∨ 0xA0 ≤ b2) ∧ (b1 ≠ 0xED ∨ b2 ≤ 0x9F) then
          Char.ofNat ((b1 - 0xE0) * 0x1000 + (b2 - 0x80) * 0x40 + (b3 - 0x80)) ::
            utf8DecodeGo fuel rest3
        else '�' :: utf8DecodeGo fuel rest
      | _ => '�' :: utf8DecodeGo fuel rest
    else if 0xF0 ≤ b1 ∧ b1 ≤ 0xF4 then
      match rest with
      | b2 :: b3 :: b4 :: rest4 =>
        if contByte b2 ∧ contByte b3 ∧ contByte b4 ∧
            (b1 ≠ 0xF0 ∨ 0x90 ≤ b2) ∧ (b1 ≠ 0xF4 ∨ b2 ≤ 0x8F) then
          Char.ofNat ((b1 - 0xF0) * 0x40000 + (b2 - 0x80) * 0x1000 +
              (b3 - 0x80) * 0x40 + (b4 - 0x80)) :: utf8DecodeGo fuel rest4
        else '�' :: utf8DecodeGo fuel rest
      | _ => '�' :: utf8DecodeGo fuel rest
    else '�' :: utf8DecodeGo fuel rest

/-- UTF-8 decoding with `errors='replace'` (invalid prefixes become
U+FFFD), as `.decode('utf-8', 'replace')` does. -/
def utf8Decode (l : List Nat) : List Char := utf8DecodeGo l.length l

/-- CPython `unquote` (with `errors='replace'`). -/
def pyUnquote (l : List Char) : List Char := utf8Decode (pctDecodeBytes l)

/-- Model of `unquote_plus`: `+` becomes a space, then percent-unquoting. -/
def unquotePlus (l : List Char) : List Char :=
  pyUnquote (l.map (fun c => if c = '+' then ' ' else c))

/-- Per-chunk handling of `parse_qsl`: an empty chunk is skipped; a chunk
splits at its first `=` (a chunk without `=` keeps a blank value, since
`keep_blank_values=True`); names and values are unquoted. -/
def parseQslChunk (pair : List Char) : Option (List Char × List Char) :=
  match pair with
  | [] => none
  | _ =>
    match takeUntil (· = '=') pair with
    | (name, _ :: value) => some (unquotePlus name, unquotePlus value)
    | (name, []) => some (unquotePlus name, [])

/-- CPython `parse_qsl(qs, keep_blank_values=True)`: split on `&` and
handle each chunk. -/
def parseQsl (qs : List Char) : List (List Char × List Char) :=
  (splitSep '&' qs).filterMap parseQslChunk

/-- Append one value under a key, with Python-dict semantics: an existing
key keeps its position and collects the value, a new key goes to the end. -/
def dictAppend (d : List (List Char × List (List Char))) (k : List Char)
    (v : List Char) : List (List Char × List (List Char)) :=
  match d with
  | [] => [(k, [v])]
  | (k', vs) :: rest =>
    if k' = k then (k', vs ++ [v]) :: rest else (k', vs) :: dictAppend rest k v

/-- CPython `parse_qs(qs, keep_blank_values=True)`: the pairs of
`parse_qsl` grouped into an insertion-ordered multimap. -/
def parseQs (qs : List Char) : List (List Char × List (List Char)) :=
  (parseQsl qs).foldl (fun d kv => dictAppend d kv.1 kv.2) []

/-! ### `core/ids.py` -/

/-- Model of `TRACKING_PARAMS` of `core/ids.py`. -/
def TRACKING_PARAMS : List (List Char) :=
  ["utm_source".data, "utm_medium".data, "utm_campaign".data, "utm_term".data,
    "utm_content".data, "fbclid".data, "gclid".data, "ref".data, "source".data,
    "mc_cid".data, "mc_eid".data]

/-- Python code-point comparison of strings, used by `sorted`. -/
def listCharLt : List Char → List Char → Bool
  | [], [] => false
  | [], _ :: _ => true
  | _ :: _, [] => false
  | a :: as, b :: bs =>
    if a.toNat < b.toNat then true
    else if b.toNat < a.toNat then false
    else listCharLt as bs

/-- Stable insertion into a key-sorted association list. -/
def insertByKey (x : List Char × List (List Char)) :
    List (List Char × List (List Char)) → List (List Char × List (List Char))
  | [] => [x]
  | y :: ys => if listCharLt y.1 x.1 then y :: insertByKey x ys else x :: y :: ys

/-- Stable sort by key.  `normalize_url` sorts dict items, whose keys are
distinct, so sorting by key alone coincides with Python's tuple sort. -/
def sortByKey : List (List Char × List (List Char)) →
    List (List Char × List (List Char))
  | [] => []
  | x :: xs => insertByKey x (sortByKey xs)

/-- The query rebuilt by `normalize_url`:
`"&".join(f"{k}={v[0]}" for k, v in sorted(filtered_params.items()) if v)`. -/
def buildQuery (items : List (List Char × List (List Char))) : List Char :=
  joinSep '&' (items.filterMap fun kv =>
    match kv.2 with
    | [] => none
    | v :: _ => some (kv.1 ++ '=' :: v))

/-- The query rewrite of `normalize_url`: drop tracking parameters from
the parsed query, sort the remaining ones, and join them back with the
first value of each key. -/
def queryTransform (query : List Char) : List Char :=
  buildQuery (sortByKey
    ((parseQs query).filter (fun kv => ¬ asciiLower kv.1 ∈ TRACKING_PARAMS)))

/-- The path rewrite of `normalize_url`: remove trailing slashes unless
the path is exactly the root `/`. -/
def pathTransform (path : List Char) : List Char :=
  if path ≠ ['/'] ∧ endsWithChar '/' path then rstripChar '/' path else path

/-- Model of `core/ids.py` `normalize_url`, at character-list level. -/
def normalizeUrlList (url : List Char) : List Char :=
  let parsed := pyUrlparse url
  let scheme := asciiLower parsed.scheme
  let netloc := asciiLower parsed.netloc
  let sortedQuery := queryTransform parsed.query
  let path := pathTransform parsed.path
  pyUrlunparse scheme netloc path [] sortedQuery []

/-- Model of `core/ids.py` `normalize_url`. -/
def normalize_url (url : String) : String := ⟨normalizeUrlList url.data⟩

/-- Python `\s` class (ASCII scope), as used by `slugify`'s regexes and
`str.strip()`. -/
def isPySpace (c : Char) : Bool :=
  c = ' ' || c = '\t' || c = '\n' || c = '\r' || c = '\x0b' || c = '\x0c'

/-- Python `\w` class (ASCII scope): letters, digits, underscore. -/
def isPyWord (c : Char) : Bool := c.isAlpha || c.isDigit || c = '_'

/-- Strip characters satisfying `p` from both ends (Python `str.strip`). -/
def stripWhile (p : Char → Bool) (l : List Char) : List Char :=
  ((l.dropWhile p).reverse.dropWhile p).reverse

/-- Worker for `collapseDashRuns`; the flag records whether the scanner
is inside a run of hyphens/whitespace whose single `-` was already
emitted. -/
def collapseDashGo : Bool → List Char → List Char
  | _, [] => []
  | inRun, c :: rest =>
    if c = '-' || isPySpace c then
      if inRun then collapseDashGo true rest
      else '-' :: collapseDashGo true rest
    else c :: collapseDashGo false rest

/-- Model of `re.sub(r"[-\s]+", "-", ...)`: collapse every run of hyphens
and whitespace into one hyphen. -/
def collapseDashRuns (l : List Char) : List Char := collapseDashGo false l

/-- Model of `core/ids.py` `slugify`, at character-list level: lowercase and strip,
drop characters outside `[\w\s-]`, collapse `[-\s]+` runs to `-`, strip
hyphens. -/
def slugifyList (text : List Char) : List Char :=
  let t := stripWhile isPySpace (asciiLower text)
  let t := t.filter (fun c => isPyWord c || isPySpace c || c = '-')
  let t := collapseDashRuns t
  stripWhile (· = '-') t

/-- Model of `core/ids.py` `slugify`. -/
def slugify (text : String) : String := ⟨slugifyList text.data⟩

/-! ### `parsing/normalizers.py` -/

/-- Model of `extract_domain`: the lowercased netloc of the URL, with a leading
`www.` stripped. -/
def extract_domain (url : String) : String :=
  let host := asciiLower (pyUrlparse url.data).netloc
  if host.take 4 = "www.".data then ⟨host.drop 4⟩ else ⟨host⟩

/-- Model of `make_company_id`: `f"{slugify(name)}-{slugify(domain)}"`. -/
def make_company_id (name domain : String) : String :=
  slugify name ++ "-" ++ slugify domain

/-! ## `collectors/http_client.py`

`HttpClient.fetch` and `_fetch_with_retry`.  The network is modelled as a
script assigning an outcome to every attempt index; wall-clock fields
(`duration_ms`) and the rate limiter's sleeping (which does not influence
the returned value) are not modelled. -/

/-- Model of `FetchResult` of `collectors/http_client.py` (without `duration_ms`). -/
structure FetchResult where
  url : String
  status_code : Int
  content : List Nat
  headers : List (String × String)
  content_type : Option String
  success : Bool
  error : Option String := none
  retry_count : Nat := 0
deriving Repr, DecidableEq

/-- An HTTP response as `httpx` returns it (the fields `fetch` reads). -/
structure HttpResponse where
  status_code : Int
  content : List Nat
  headers : List (String × String)
deriving Repr, DecidableEq

/-- Outcome of one `self._client.get(url)` attempt. -/
inductive NetAttempt where
  /-- A response came back (any status code, redirects already followed). -/
  | response (r : HttpResponse)
  /-- Model of `httpx.TimeoutException`. -/
  | timeout (msg : String)
  /-- Model of `httpx.NetworkError` (DNS failure, connection reset, ...). -/
  | netError (msg : String)
  /-- Any other exception raised by the GET. -/
  | otherError (msg : String)
deriving Repr

/-- Model of `dict.get` on the headers mapping. -/
def headerGet (hs : List (String × String)) (k : String) : Option String :=
  (hs.find? (fun kv => kv.1 = k)).map (·.2)

/-- Model of `httpx.Response.is_success`: a 2xx status code. -/
def is2xx (status : Int) : Bool := 200 ≤ status ∧ status < 300

/-- The tenacity-decorated `_do_fetch` loop of `_fetch_with_retry`:
`stop_after_attempt(max_retries)` allows `max_retries` attempts in total,
retrying only `httpx.TimeoutException` / `httpx.NetworkError`; exhausting
the attempts raises a `RetryError`.  Returns the outcome together with
the number of attempts actually performed. -/
def tenacityRun (script : Nat → NetAttempt) :
    Nat → Nat → Except String HttpResponse × Nat
  | 0, i => (Except.error "RetryError", i)
  | attemptsLeft + 1, i =>
    match script i with
    | .response r => (Except.ok r, i + 1)
    | .timeout msg | .netError msg =>
      if attemptsLeft = 0 then (Except.error ("RetryError: " ++ msg), i + 1)
      else tenacityRun script attemptsLeft (i + 1)
    | .otherError msg => (Except.error msg, i + 1)

/-- Model of `HttpClient._fetch_with_retry`: raises `RuntimeError` when the client
session was never entered, otherwise runs the retry loop. -/
def fetchWithRetry (clientInitialized : Bool) (maxRetries : Nat)
    (script : Nat → NetAttempt) : Except String HttpResponse × Nat :=
  if ¬ clientInitialized then
    -- str(RuntimeError(...)); the source message quotes async with.
    (Except.error "Client not initialized. Use async with context.", 0)
  else tenacityRun script maxRetries 0

/-- Model of `HttpClient.fetch`: rate-limit (no effect on the value), then fold the
outcome of `_fetch_with_retry` into a `FetchResult`.  The local
`retry_count` is initialized to 0 and never updated in the source, which
is mirrored here. -/
def HttpClient.fetch (clientInitialized : Bool) (maxRetries : Nat)
    (script : Nat → NetAttempt) (url : String) : FetchResult :=
  let retryCount := 0
  match (fetchWithRetry clientInitialized maxRetries script).1 with
  | .ok r =>
    { url := url, status_code := r.status_code, content := r.content,
      headers := r.headers, content_type := headerGet r.headers "content-type",
      success := is2xx r.status_code, error := none, retry_count := retryCount }
  | .error e =>
    { url := url, status_code := 0, content := [], headers := [],
      content_type := none, success := false, error := some e,
      retry_count := retryCount }

/-! ## `collectors/planner.py` -/

/-- Model of `SourceConfig` of `core/config.py`. -/
structure SourceConfig where
  source_id : String
  source_type : String
  url : String
  enabled : Bool := true
  rate_limit_rps : ℚ := 1
  timeout_seconds : Int := 30
  max_retries : Nat := 3
  follow_links : Bool := false
  metadata : List (String × String) := []
deriving Repr, DecidableEq

/-- Model of `FetchPolicy` of `collectors/planner.py`. -/
structure FetchPolicy where
  rate_limit_rps : ℚ := 1
  timeout_seconds : Int := 30
  max_retries : Nat := 3
  follow_links : Bool := false
deriving Repr, DecidableEq

/-- Model of `FetchTask` of `collectors/planner.py`. -/
structure FetchTask where
  url : String
  source_id : String
  source_type : String
  fetch_policy : FetchPolicy
  original_url : String
  metadata : List (String × String) := []
deriving Repr, DecidableEq

/-- Model of `FetchTask.from_source_config`: both `url` and `original_url` are set
to `config.url` unchanged. -/
def FetchTask.from_source_config (config : SourceConfig) : FetchTask :=
  { url := config.url
    original_url := config.url
    source_id := config.source_id
    source_type := config.source_type
    fetch_policy :=
      { rate_limit_rps := config.rate_limit_rps
        timeout_seconds := config.timeout_seconds
        max_retries := config.max_retries
        follow_links := config.follow_links }
    metadata := config.metadata }

/-- The task-building loop of `plan_sources`: disabled sources are
skipped, enabled ones yield one task each, in configuration order.  (The
surrounding stage bookkeeping on the run context is modelled separately
by `complete_stage`; `FetchTask.from_source_config` cannot raise on a
well-typed `SourceConfig`, so the per-source `except` branch adds no
errors.) -/
def plan_sources (sources : List SourceConfig) : List FetchTask :=
  sources.filterMap fun source =>
    if ¬ source.enabled then none
    else some (FetchTask.from_source_config source)

/-- Model of `canonical_url` as the collect stage stores it
(`collectors/collector.py`): the normalized form of `task.url`. -/
def snapshotCanonicalUrl (task : FetchTask) : String := normalize_url task.url

/-! ## `core/context.py` (`RunContext.complete_stage`)

Timestamps are abstracted to integers; `datetime.now()` at completion
time is passed in as `now` and `duration_seconds` becomes the integer
difference. -/

/-- Model of `StageLog` of `core/context.py`. -/
structure StageLog where
  stage : String
  started_at : Int
  completed_at : Option Int := none
  status : String := "running"
  items_in : Nat := 0
  items_out : Nat := 0
  errors : List String := []
  duration_seconds : Option Int := none
deriving Repr, DecidableEq

/-- Model of `RunContext.complete_stage` acting on `stage_logs`: walk the list from
the front and close the first log whose `stage` matches and whose
`completed_at` is `None`, then stop (`break`).  `errors=None` and
`errors=[]` are both falsy in `if errors:`, so the empty list stands for
both. -/
def complete_stage (stage : String) (items_out : Nat) (errors : List String)
    (status : String) (now : Int) : List StageLog → List StageLog
  | [] => []
  | log :: rest =>
    if log.stage = stage ∧ log.completed_at = none then
      { log with
        completed_at := some now
        items_out := items_out
        status := status
        errors := if errors ≠ [] then errors else log.errors
        duration_seconds := some (now - log.started_at) } :: rest
    else log :: complete_stage stage items_out errors status now rest

/-! ## `parsing/models.py` -/

/-- Model of `EvidenceSnippet`. -/
structure EvidenceSnippet where
  text : String
  context : String
deriving Repr, DecidableEq

/-- Model of `Signal`. -/
structure Signal where
  name : String
  value : String
  evidence : EvidenceSnippet
deriving Repr, DecidableEq

/-- Model of `CompanyProfile`; `confidence` is a rational standing for the Python
float. -/
structure CompanyProfile where
  company_id : String
  name : String
  domain : String
  website : String
  summary : String
  tags : List String := []
  signals : List Signal := []
  confidence : ℚ := 0
  unknowns : List String := []
  raw_llm_response : Option String := none
deriving Repr, DecidableEq

/-- Model of `ParseStatus`.  The Lean keyword `partial` cannot be an identifier, so
`ParseStatus.PARTIAL` is rendered `partial_`. -/
inductive ParseStatus where
  | success
  | partial_
  | failed
  | skipped
deriving Repr, DecidableEq

/-- Model of `ParsedItemLog` (without the wall-clock `duration_ms`). -/
structure ParsedItemLog where
  snapshot_id : String
  source_id : String
  status : ParseStatus
  warnings : List String := []
  errors : List String := []
  llm_model : Option String := none
  llm_tokens_used : Nat := 0
deriving Repr, DecidableEq

/-- Model of `ParseSummary`.  The second counter is rendered `num_partial_`,
matching the spelling chosen for `ParseStatus.partial_`. -/
structure ParseSummary where
  num_success : Nat := 0
  num_partial_ : Nat := 0
  num_failed : Nat := 0
  num_skipped : Nat := 0
  total_tokens : Nat := 0
  profiles : List CompanyProfile := []
  logs : List ParsedItemLog := []
deriving Repr, DecidableEq

/-! ## `parsing/llm.py` (`extract_company_profile`)

The `litellm.completion` call is external; its outcome is an explicit
input.  `json.loads(raw_text)` is deterministic, so its result travels
with the raw text — the source calls it twice (strict parse, then
salvage) on the same string and necessarily gets the same result, which
the single `decoded` field captures.  Pydantic validation of the decoded
value is modelled by `CompanyProfile.model_validate` below. -/

/-- A decoded JSON value (`json.loads` output). -/
inductive Json where
  | null
  | bool (b : Bool)
  | num (q : ℚ)
  | str (s : String)
  | arr (elems : List Json)
  | obj (fields : List (String × Json))

/-- Last-occurrence lookup in a JSON object, matching `json.loads`
semantics where a repeated key keeps its last value. -/
def jsonGet (fields : List (String × Json)) (k : String) : Option Json :=
  (fields.reverse.find? (fun kv => kv.1 = k)).map (·.2)

/-- Model of `dict.setdefault(k, v)`: keep an existing key, else append the pair. -/
def jsonSetdefault (fields : List (String × Json)) (k : String) (v : Json) :
    List (String × Json) :=
  if fields.any (fun kv => kv.1 = k) then fields else fields ++ [(k, v)]

/-- Validate a JSON value as a `str` field. -/
def Json.asString : Json → Except String String
  | .str s => Except.ok s
  | _ => Except.error "str expected"

/-- Validate a JSON value as a `float` field (int and float both pass). -/
def Json.asFloatVal : Json → Except String ℚ
  | .num q => Except.ok q
  | _ => Except.error "float expected"

/-- Validate a JSON value as `list[str]`. -/
def Json.asStringList : Json → Except String (List String)
  | .arr elems => elems.mapM Json.asString
  | _ => Except.error "list of str expected"

/-- A required field of a pydantic model. -/
def requireField (fields : List (String × Json)) (k : String)
    (conv : Json → Except String α) : Except String α :=
  match jsonGet fields k with
  | some v => conv v
  | none => Except.error ("Field required: " ++ k)

/-- An optional field with a default. -/
def optField (fields : List (String × Json)) (k : String) (d : α)
    (conv : Json → Except String α) : Except String α :=
  match jsonGet fields k with
  | some v => conv v
  | none => Except.ok d

/-- Validate an `EvidenceSnippet` object. -/
def EvidenceSnippet.model_validate : Json → Except String EvidenceSnippet
  | .obj fields => do
    let text ← requireField fields "text" Json.asString
    let context ← requireField fields "context" Json.asString
    Except.ok { text := text, context := context }
  | _ => Except.error "EvidenceSnippet expects an object"

/-- Validate a `Signal` object. -/
def Signal.model_validate : Json → Except String Signal
  | .obj fields => do
    let name ← requireField fields "name" Json.asString
    let value ← requireField fields "value" Json.asString
    let evidence ← requireField fields "evidence" EvidenceSnippet.model_validate
    Except.ok { name := name, value := value, evidence := evidence }
  | _ => Except.error "Signal expects an object"

/-- Validate `list[Signal]`. -/
def Json.asSignalList : Json → Except String (List Signal)
  | .arr elems => elems.mapM Signal.model_validate
  | _ => Except.error "list of Signal expected"

/-- Validate a JSON value as `str | None`. -/
def Json.asOptString : Json → Except String (Option String)
  | .str s => Except.ok (some s)
  | .null => Except.ok none
  | _ => Except.error "str or null expected"

/-- Model of `CompanyProfile.model_validate`: the five identity/summary fields are
required strings; the remaining fields are optional with the model's
defaults; unknown keys are ignored (pydantic's default). -/
def CompanyProfile.model_validate : Json → Except String CompanyProfile
  | .obj fields => do
    let company_id ← requireField fields "company_id" Json.asString
    let name ← requireField fields "name" Json.asString
    let domain ← requireField fields "domain" Json.asString
    let website ← requireField fields "website" Json.asString
    let summary ← requireField fields "summary" Json.asString
    let tags ← optField fields "tags" [] Json.asStringList
    let signals ← optField fields "signals" [] Json.asSignalList
    let confidence ← optField fields "confidence" 0 Json.asFloatVal
    let unknowns ← optField fields "unknowns" [] Json.asStringList
    let raw ← optField fields "raw_llm_response" none Json.asOptString
    Except.ok { company_id := company_id
                name := name
                domain := domain
                website := website
                summary := summary
                tags := tags
                signals := signals
                confidence := confidence
                unknowns := unknowns
                raw_llm_response := raw }
  | _ => Except.error "CompanyProfile expects an object"

/-- Model of `ContentBlock` of `parsing/adapters/base.py` (meta restricted to the
string-valued entries the prompt builder reads). -/
structure ContentBlock where
  main_text : String
  meta : List (String × String) := []
  key_links : List String := []
  company_hint : Option String := none
deriving Repr, DecidableEq

/-- Outcome of the `litellm.completion` call. -/
inductive LlmOutcome where
  /-- The call raised; `msg` is `str(e)`. -/
  | exn (msg : String)
  /-- The call returned: `rawText` is `choices[0].message.content or ""`,
  `decoded` is the result of `json.loads(rawText)`, and `tokens` is
  `usage.total_tokens` when a usage object is present. -/
  | reply (rawText : String) (decoded : Except String Json) (tokens : Option Nat)

/-- The salvage branch of `extract_company_profile`: re-decode, fill the
required identity fields via `setdefault`, re-validate, cap confidence at
0.3.  A decode failure or a non-object decode (where `.setdefault` would
raise `AttributeError`) falls into the bare `except`, returning no
profile and leaving the log as already set. -/
def salvageProfile (decoded : Except String Json) (hint : Option String)
    (url : String) (rawText : String) : Option CompanyProfile :=
  match decoded with
  | .ok (.obj fields) =>
    let fields := jsonSetdefault fields "company_id" (.str "unknown")
    let fields := jsonSetdefault fields "name" (.str (hint.getD "Unknown"))
    let fields := jsonSetdefault fields "domain" (.str "unknown")
    let fields := jsonSetdefault fields "website" (.str url)
    let fields := jsonSetdefault fields "summary" (.str "Extraction incomplete")
    match CompanyProfile.model_validate (.obj fields) with
    | .ok profile =>
      some { profile with
        raw_llm_response := some rawText
        confidence := min profile.confidence (3 / 10) }
    | .error _ => none
  | _ => none

/-- Model of `extract_company_profile` of `parsing/llm.py`. -/
def extract_company_profile (content_block : ContentBlock) (model : String)
    (snapshot_id source_id : String) (url : String) (outcome : LlmOutcome) :
    Option CompanyProfile × ParsedItemLog :=
  let log : ParsedItemLog :=
    { snapshot_id := snapshot_id, source_id := source_id,
      status := ParseStatus.failed, llm_model := some model }
  match outcome with
  | .exn msg =>
    (none, { log with errors := log.errors ++ ["LLM call failed: " ++ msg] })
  | .reply rawText decoded tokens =>
    let log := { log with llm_tokens_used := tokens.getD 0 }
    let strict : Except String CompanyProfile :=
      match decoded with
      | .ok data => CompanyProfile.model_validate data
      | .error e => Except.error e
    match strict with
    | .ok profile =>
      (some { profile with raw_llm_response := some rawText },
        { log with status := ParseStatus.success })
    | .error e =>
      let log := { log with
        status := if rawText ≠ "" then ParseStatus.partial_ else ParseStatus.failed
        errors := log.errors ++ ["Validation failed: " ++ e]
        warnings := log.warnings ++ ["Raw LLM output stored for debugging"] }
      match salvageProfile decoded content_block.company_hint url rawText with
      | some profile => (some profile, { log with status := ParseStatus.partial_ })
      | none => (none, log)

/-! ## `parsing/parser.py` (`parse_and_normalize`)

The adapter registry of `parsing/adapters/__init__.py` holds exactly one
entry, `careers_page`.  The snapshot store's `get_content`, the adapter's
HTML processing and the completion call are the stage's external inputs,
collected in `ParseEnv`. -/

/-- The fields of `evidence/snapshot.py` `RawSnapshot` that the parse
stage reads (storage-side fields such as `content_path` are omitted). -/
structure RawSnapshot where
  snapshot_id : String
  run_id : String := ""
  source_id : String
  source_type : String
  original_url : String := ""
  canonical_url : String
  status_code : Int
  success : Bool
deriving Repr, DecidableEq

/-- Model of `ADAPTER_REGISTRY` lookup: `get_adapter` returns an adapter exactly
for `careers_page`. -/
def hasAdapter (source_type : String) : Bool := source_type = "careers_page"

/-- External collaborators of the parse stage. -/
structure ParseEnv where
  /-- Model of `snapshot_store.get_content`. -/
  getContent : String → Option (List Nat)
  /-- Model of `adapter.extract_content` on the snapshot, its raw bytes and the
  source metadata reconstructed from the run's source configuration. -/
  extractContent : RawSnapshot → List Nat → ContentBlock
  /-- Outcome of the completion call made for a snapshot. -/
  llmOutcome : String → LlmOutcome

/-- One iteration of the `for snapshot in snapshots` loop of
`parse_and_normalize`. -/
def parseStep (env : ParseEnv) (model : String) (summary : ParseSummary)
    (snapshot : RawSnapshot) : ParseSummary :=
  if ¬ snapshot.success then
    { summary with
      logs := summary.logs ++
        [{ snapshot_id := snapshot.snapshot_id, source_id := snapshot.source_id,
           status := ParseStatus.skipped,
           warnings := ["Snapshot not successful (HTTP " ++
             toString snapshot.status_code ++ ")"] }]
      num_skipped := summary.num_skipped + 1 }
  else if ¬ hasAdapter snapshot.source_type then
    { summary with
      logs := summary.logs ++
        [{ snapshot_id := snapshot.snapshot_id, source_id := snapshot.source_id,
           status := ParseStatus.skipped,
           warnings := ["No adapter for source_type=" ++ snapshot.source_type] }]
      num_skipped := summary.num_skipped + 1 }
  else
    match env.getContent snapshot.snapshot_id with
    | none =>
      { summary with
        logs := summary.logs ++
          [{ snapshot_id := snapshot.snapshot_id, source_id := snapshot.source_id,
             status := ParseStatus.failed,
             errors := ["Could not load snapshot content"] }]
        num_failed := summary.num_failed + 1 }
    | some htmlBytes =>
      let contentBlock := env.extractContent snapshot htmlBytes
      let extracted := extract_company_profile contentBlock model
        snapshot.snapshot_id snapshot.source_id snapshot.canonical_url
        (env.llmOutcome snapshot.snapshot_id)
      let log := extracted.2
      -- Post-process: set deterministic fields.
      let profileOpt := extracted.1.map fun profile =>
        let domain := extract_domain snapshot.canonical_url
        { profile with
          domain := domain
          website := snapshot.canonical_url
          company_id := make_company_id profile.name domain }
      let summary := { summary with
        logs := summary.logs ++ [log]
        total_tokens := summary.total_tokens + log.llm_tokens_used }
      match log.status with
      | ParseStatus.success =>
        { summary with
          num_success := summary.num_success + 1
          profiles := summary.profiles ++ profileOpt.toList }
      | ParseStatus.partial_ =>
        { summary with
          num_partial_ := summary.num_partial_ + 1
          profiles := summary.profiles ++ profileOpt.toList }
      | ParseStatus.failed =>
        { summary with num_failed := summary.num_failed + 1 }
      | ParseStatus.skipped =>
        { summary with num_skipped := summary.num_skipped + 1 }

/-- Model of `parse_and_normalize`: fold the loop body over the snapshots,
starting from an empty `ParseSummary`.  (Stage bookkeeping on the run
context and persistence into the parse store do not change the returned
summary and are not modelled here.) -/
def parse_and_normalize (env : ParseEnv) (model : String)
    (snapshots : List RawSnapshot) : ParseSummary :=
  snapshots.foldl (parseStep env model) {}

/-! ## Predicates and concrete fixtures used by the statements below -/

/-- Characters for which the URL model is exercised by the theorems:
printable ASCII (space allowed) without `%`, `;`, `[`, `]`. -/
def goodUrlChar (c : Char) : Bool :=
  0x20 ≤ c.toNat ∧ c.toNat ≤ 0x7E ∧ c ≠ '%' ∧ c ≠ ';' ∧ c ≠ '[' ∧ c ≠ ']'

/-- URLs covered by the amended idempotence statement: printable ASCII
without percent-escapes, `;`, or brackets, and with a nonempty authority
(`netloc`) component — every well-formed `http(s)://host...` URL. -/
def SafeUrl (u : String) : Prop :=
  (∀ c ∈ u.data, goodUrlChar c) ∧ (pyUrlsplit u.data).netloc ≠ []

instance (u : String) : Decidable (SafeUrl u) := by
  unfold SafeUrl; infer_instance

/-- Keys of a URL's query string as `parse_qs` reads them. -/
def queryKeysOf (u : String) : List (List Char) :=
  (parseQs (pyUrlparse u.data).query).map (·.1)

/-- Shape of the entries `parse_qs` produces from a percent-free ASCII
query: a nonempty value list, with keys free of `&`, `=`, `%`, `+` and
values free of `&`, `%`, `+`. -/
def goodQueryEntry (kv : List Char × List (List Char)) : Prop :=
  kv.2 ≠ [] ∧
    (∀ c ∈ kv.1, c ≠ '&' ∧ c ≠ '=' ∧ c ≠ '%' ∧ c ≠ '+' ∧ c.toNat < 0x80) ∧
    (∀ v ∈ kv.2, ∀ c ∈ v, c ≠ '&' ∧ c ≠ '%' ∧ c ≠ '+' ∧ c.toNat < 0x80)

/-- Fixture: a parse environment whose completion call always yields the
given outcome. -/
def envWith (o : LlmOutcome) : ParseEnv :=
  { getContent := fun _ => some []
    extractContent := fun _ _ => { main_text := "", company_hint := some "Acme" }
    llmOutcome := fun _ => o }

/-- Fixture: a successful careers-page snapshot. -/
def snapOk : RawSnapshot :=
  { snapshot_id := "s1", source_id := "acme", source_type := "careers_page",
    canonical_url := "https://acme.com/careers", status_code := 200,
    success := true }

/-- Fixture: a failed fetch snapshot (HTTP 500). -/
def snapBad : RawSnapshot :=
  { snapshot_id := "s2", source_id := "acme", source_type := "careers_page",
    canonical_url := "https://acme.com/careers", status_code := 500,
    success := false }

/-- Fixture: a well-formed model reply matching the profile schema, with
identity fields that deliberately disagree with the snapshot. -/
def jsonFull : Json :=
  Json.obj [("company_id", Json.str "model-says"),
    ("name", Json.str "Acme Inc"),
    ("domain", Json.str "example.org"),
    ("website", Json.str "https://example.org"),
    ("summary", Json.str "does things"),
    ("confidence", Json.num (9 / 10))]

/-- Fixture: a network script answering every attempt with the given
status code. -/
def scriptResp (code : Int) : Nat → NetAttempt :=
  fun _ => NetAttempt.response { status_code := code, content := [], headers := [] }

/-- Fixture: a network script whose first attempt times out and whose
later attempts return HTTP 200. -/
def scriptTimeoutThenOk : Nat → NetAttempt :=
  fun i => if i = 0 then NetAttempt.timeout "timed out"
    else NetAttempt.response { status_code := 200, content := [], headers := [] }

/-- Fixture: two still-open `parse` stage logs, the second started later. -/
def twoOpenLogs : List StageLog :=
  [{ stage := "parse", started_at := 0 }, { stage := "parse", started_at := 1 }]

/-- Fixture: the Scenario-A source configuration of the spec. -/
def acmeConfig : SourceConfig :=
  { source_id := "acme", source_type := "careers_page",
    url := "https://ACME.com/careers/?utm_source=x" }

/-- Fixture: a content block with a recoverable company hint. -/
def cbW : ContentBlock := { main_text := "", company_hint := some "Acme" }

/-- Fixture: a schema-conforming model reply (uses `jsonFull`). -/
def validOutcome : LlmOutcome :=
  LlmOutcome.reply "raw" (Except.ok jsonFull) (some 42)

/-- Fixture: a decodable model reply that fails validation (required
fields missing) but salvages. -/
def salvageOutcome : LlmOutcome :=
  LlmOutcome.reply "rawsalvage"
    (Except.ok (Json.obj [("name", Json.str "X"), ("confidence", Json.num (9 / 10))]))
    (some 5)

/-- Fixture: the profile the salvage path produces for `salvageOutcome`. -/
def salvagedProfileW : CompanyProfile :=
  { company_id := "unknown", name := "X", domain := "unknown",
    website := "https://acme.com/careers", summary := "Extraction incomplete",
    confidence := 3 / 10, raw_llm_response := some "rawsalvage" }

/-- Fixture: the log the salvage path produces for `salvageOutcome`. -/
def salvagedLogW : ParsedItemLog :=
  { snapshot_id := "s1", source_id := "acme", status := ParseStatus.partial_,
    warnings := ["Raw LLM output stored for debugging"],
    errors := ["Validation failed: Field required: company_id"],
    llm_model := some "gpt-4o-mini", llm_tokens_used := 5 }

/-- Fixture: a nonempty reply that is not decodable JSON, so that the
salvage attempt fails as well. -/
def undecodableOutcome : LlmOutcome :=
  LlmOutcome.reply "not json"
    (Except.error "Expecting value: line 1 column 1 (char 0)") none

/-- Fixture: the post-processed profile observed by C1's witness. -/
def postprocessedW : CompanyProfile :=
  { company_id := "acme-inc-acmecom", name := "Acme Inc", domain := "acme.com",
    website := "https://acme.com/careers", summary := "does things",
    confidence := 9 / 10, raw_llm_response := some "raw" }

/-! ## C7: failed snapshots are skipped without a model call -/

/-- C7: for a snapshot with `success=false`, one loop iteration of
`parse_and_normalize` appends exactly one `ParsedItemLog` with status
SKIPPED whose warning quotes the HTTP status code, increments only the
skipped counter, and leaves `profiles` unchanged.  The right-hand side
does not mention `env`, so the result holds for every environment — in
particular no completion call can influence it (no model call is made). -/
theorem C7_failed_snapshot_skipped (env : ParseEnv) (model : String)
    (summary : ParseSummary) (snapshot : RawSnapshot)
    (h : snapshot.success = false) :
    parseStep env model summary snapshot =
      { summary with
        logs := summary.logs ++
          [{ snapshot_id := snapshot.snapshot_id
             source_id := snapshot.source_id
             status := ParseStatus.skipped
             warnings := ["Snapshot not successful (HTTP " ++
               toString snapshot.status_code ++ ")"] }]
        num_skipped := summary.num_skipped + 1 } := by
  simp [parseStep, h]

/-- Witness for C7 at the concrete failed snapshot `snapBad`: the
hypothesis holds and the conclusion evaluates as stated. -/
theorem C7_failed_snapshot_skipped_witness :
    snapBad.success = false ∧
      parseStep (envWith (LlmOutcome.exn "down")) "gpt-4o-mini" {} snapBad =
        { logs := [{ snapshot_id := "s2"
                     source_id := "acme"
                     status := ParseStatus.skipped
                     warnings := ["Snapshot not successful (HTTP 500)"] }]
          num_skipped := 1 } :=
  ⟨rfl, by
    have h := C7_failed_snapshot_skipped (envWith (LlmOutcome.exn "down"))
      "gpt-4o-mini" {} snapBad rfl
    simpa using h⟩

/-! ## C10: one log and one counter increment per snapshot -/

/-- Helper: each loop iteration appends exactly one log and increments
exactly one of the four counters. -/
theorem parseStep_counts (env : ParseEnv) (model : String)
    (summary : ParseSummary) (snapshot : RawSnapshot) :
    (parseStep env model summary snapshot).logs.length =
        summary.logs.length + 1 ∧
      (parseStep env model summary snapshot).num_success +
          (parseStep env model summary snapshot).num_partial_ +
          (parseStep env model summary snapshot).num_failed +
          (parseStep env model summary snapshot).num_skipped =
        summary.num_success + summary.num_partial_ + summary.num_failed +
          summary.num_skipped + 1 := by
  unfold parseStep
  by_cases hs : snapshot.success
  · by_cases ha : hasAdapter snapshot.source_type
    · cases hc : env.getContent snapshot.snapshot_id with
      | none => simp [hs, ha, hc] <;> omega
      | some bytes =>
        simp only [hs, ha, hc]
        cases hst : (extract_company_profile
            (env.extractContent snapshot bytes) model snapshot.snapshot_id
            snapshot.source_id snapshot.canonical_url
            (env.llmOutcome snapshot.snapshot_id)).2.status <;>
          simp [hs, ha, hc, hst] <;> omega
    · simp [hs, ha] <;> omega
  · simp [hs] <;> omega

/-- Helper: the fold over the snapshot list adds one log and one counter
unit per input snapshot, from any starting summary. -/
theorem parseFold_counts (env : ParseEnv) (model : String)
    (snapshots : List RawSnapshot) :
    ∀ summary : ParseSummary,
      ((snapshots.foldl (parseStep env model) summary).logs.length =
          summary.logs.length + snapshots.length) ∧
        ((snapshots.foldl (parseStep env model) summary).num_success +
            (snapshots.foldl (parseStep env model) summary).num_partial_ +
            (snapshots.foldl (parseStep env model) summary).num_failed +
            (snapshots.foldl (parseStep env model) summary).num_skipped =
          summary.num_success + summary.num_partial_ + summary.num_failed +
            summary.num_skipped + snapshots.length) := by
  induction snapshots with
  | nil => intro summary; simp
  | cons snap rest ih =>
    intro summary
    have hstep := parseStep_counts env model summary snap
    have hrest := ih (parseStep env model summary snap)
    simp only [List.foldl_cons, List.length_cons]
    constructor
    · omega
    · omega

/-- C10: `parse_and_normalize` emits exactly one `ParsedItemLog` per input
snapshot, and the four `ParseSummary` counters sum to the number of input
snapshots. -/
theorem C10_one_log_one_counter_per_snapshot (env : ParseEnv)
    (model : String) (snapshots : List RawSnapshot) :
    (parse_and_normalize env model snapshots).logs.length =
        snapshots.length ∧
      (parse_and_normalize env model snapshots).num_success +
          (parse_and_normalize env model snapshots).num_partial_ +
          (parse_and_normalize env model snapshots).num_failed +
          (parse_and_normalize env model snapshots).num_skipped =
        snapshots.length := by
  have h := parseFold_counts env model snapshots {}
  simpa [parse_and_normalize] using h

/-! ## C2: salvage caps confidence at 0.3 -/

/-- Helper: whatever profile the salvage branch returns has confidence at
most 0.3 (it is `min(confidence, 0.3)`). -/
theorem salvageProfile_confidence_le (decoded : Except String Json)
    (hint : Option String) (url rawText : String) (p : CompanyProfile)
    (h : salvageProfile decoded hint url rawText = some p) :
    p.confidence ≤ 3 / 10 := by
  unfold salvageProfile at h
  split at h
  · rename_i fields
    dsimp only at h
    split at h
    · rename_i profile hv
      injection h with h'
      subst h'
      exact min_le_right _ _
    · simp at h
  · simp at h

/-- C2: whenever `extract_company_profile` returns a profile with parse
status PARTIAL — which only the salvage branch produces — the profile's
confidence is at most 0.3, regardless of the confidence value the model
reported. -/
theorem C2_partial_confidence_le_03 (content_block : ContentBlock)
    (model snapshot_id source_id url : String) (outcome : LlmOutcome)
    (p : CompanyProfile) (log : ParsedItemLog)
    (h : extract_company_profile content_block model snapshot_id source_id url
        outcome = (some p, log))
    (hst : log.status = ParseStatus.partial_) :
    p.confidence ≤ 3 / 10 := by
  unfold extract_company_profile at h
  cases outcome with
  | exn msg => simp at h
  | reply rawText decoded tokens =>
    dsimp only at h
    split at h
    · rename_i profile hstrict
      simp at h
      rcases h with ⟨-, hlog⟩
      rw [← hlog] at hst
      simp at hst
    · rename_i e hstrict
      split at h
      · rename_i profile hsal
        simp at h
        rcases h with ⟨hp, -⟩
        rw [← hp]
        exact salvageProfile_confidence_le _ _ _ _ _ hsal
      · simp at h

/-- Witness for C2: a model reply whose own confidence is 0.9 salvages
into a PARTIAL profile with confidence 0.3 ≤ 0.3. -/
theorem C2_partial_confidence_le_03_witness :
    extract_company_profile cbW "gpt-4o-mini" "s1" "acme"
        "https://acme.com/careers" salvageOutcome =
      (some salvagedProfileW, salvagedLogW) ∧
      salvagedLogW.status = ParseStatus.partial_ ∧
      salvagedProfileW.confidence ≤ 3 / 10 := by
  have hmin : min ((9 : ℚ) / 10) (3 / 10) = 3 / 10 := min_eq_right (by norm_num)
  have hbase : extract_company_profile cbW "gpt-4o-mini" "s1" "acme"
      "https://acme.com/careers" salvageOutcome =
      (some { salvagedProfileW with confidence := min ((9 : ℚ) / 10) (3 / 10) },
        salvagedLogW) := rfl
  rw [hmin] at hbase
  exact ⟨hbase, rfl,
    C2_partial_confidence_le_03 cbW "gpt-4o-mini" "s1" "acme"
      "https://acme.com/careers" salvageOutcome salvagedProfileW salvagedLogW
      hbase rfl⟩

/-! ## C3: a reply that fails decoding and salvage -/

/-- C3 (divergence evaluation): a nonempty, undecodable model reply makes
both the strict parse and the salvage fail, so no profile is returned —
but the emitted log carries status PARTIAL (set optimistically from
`raw_text` being nonempty and never reset), not the FAILED the spec
requires. -/
theorem C3_unsalvageable_is_logged_partial :
    (extract_company_profile cbW "gpt-4o-mini" "s1" "acme"
        "https://acme.com/careers" undecodableOutcome).1 = none ∧
      (extract_company_profile cbW "gpt-4o-mini" "s1" "acme"
          "https://acme.com/careers" undecodableOutcome).2.status =
        ParseStatus.partial_ ∧
      ParseStatus.partial_ ≠ ParseStatus.failed := by
  refine ⟨by decide, by decide, by decide⟩

/-! ## C1: deterministic post-processing of identity fields -/

/-- C1: every profile the parse stage adds for a snapshot (status SUCCESS
or PARTIAL alike) leaves the loop with `domain` recomputed from the
snapshot's canonical URL (lowercased netloc, `www.` stripped — that is
`extract_domain`), `website` forced to the canonical URL, and
`company_id` recomputed as `slugify(name)-slugify(domain)`, regardless of
what the model emitted for those fields (the statement quantifies over
every environment, hence over every model output). -/
theorem C1_postprocess_forces_identity_fields (env : ParseEnv)
    (model : String) (summary : ParseSummary) (snapshot : RawSnapshot)
    (p : CompanyProfile)
    (hp : p ∈ (parseStep env model summary snapshot).profiles) :
    p ∈ summary.profiles ∨
      (p.domain = extract_domain snapshot.canonical_url ∧
        p.website = snapshot.canonical_url ∧
        p.company_id = slugify p.name ++ "-" ++ slugify p.domain) := by
  unfold parseStep at hp
  by_cases hs : snapshot.success
  · by_cases ha : hasAdapter snapshot.source_type
    · cases hc : env.getContent snapshot.snapshot_id with
      | none =>
        rw [hc] at hp
        simp [hs, ha] at hp
        exact Or.inl hp
      | some bytes =>
        rw [hc] at hp
        simp only [hs, ha] at hp
        set extracted := extract_company_profile
          (env.extractContent snapshot bytes) model snapshot.snapshot_id
          snapshot.source_id snapshot.canonical_url
          (env.llmOutcome snapshot.snapshot_id) with hex
        cases hst : extracted.2.status <;>
          cases hopt : extracted.1 <;>
            simp [hst, hopt, make_company_id] at hp <;>
              first
                | exact Or.inl hp
                | (rcases hp with hp | hp
                   · exact Or.inl hp
                   · subst hp; simp [make_company_id])
    · simp [hs, ha] at hp
      exact Or.inl hp
  · simp [hs] at hp
    exact Or.inl hp

/-- Witness for C1: with a schema-valid model reply whose `domain`,
`website` and `company_id` all disagree with the snapshot, the stored
profile carries the recomputed values. -/
theorem C1_postprocess_forces_identity_fields_witness :
    postprocessedW ∈ (parseStep (envWith validOutcome) "gpt-4o-mini" {}
        snapOk).profiles ∧
      (postprocessedW ∈ ({} : ParseSummary).profiles ∨
        (postprocessedW.domain = extract_domain snapOk.canonical_url ∧
          postprocessedW.website = snapOk.canonical_url ∧
          postprocessedW.company_id =
            slugify postprocessedW.name ++ "-" ++ slugify postprocessedW.domain)) := by
  have hprof : (parseStep (envWith validOutcome) "gpt-4o-mini" {}
      snapOk).profiles = [postprocessedW] := rfl
  have hmem : postprocessedW ∈ (parseStep (envWith validOutcome) "gpt-4o-mini" {}
      snapOk).profiles := by
    rw [hprof]; exact List.mem_singleton_self _
  exact ⟨hmem,
    C1_postprocess_forces_identity_fields (envWith validOutcome) "gpt-4o-mini"
      {} snapOk postprocessedW hmem⟩

/-! ## C4 and C5: the fetch client -/

/-- Helper: a successful outcome of the retry loop is a response the
network script actually returned at some attempt index. -/
theorem tenacityRun_ok_mem (script : Nat → NetAttempt) :
    ∀ (fuel i : Nat) (r : HttpResponse),
      (tenacityRun script fuel i).1 = Except.ok r →
      ∃ k, script k = NetAttempt.response r := by
  intro fuel
  induction fuel with
  | zero => intro i r h; simp [tenacityRun] at h
  | succ n ih =>
    intro i r h
    unfold tenacityRun at h
    cases hs : script i with
    | response r' =>
      rw [hs] at h
      simp at h
      exact ⟨i, by rw [hs, h]⟩
    | timeout msg =>
      rw [hs] at h
      by_cases hn : n = 0
      · simp [hn] at h
      · simp [hn] at h
        exact ih (i + 1) r h
    | netError msg =>
      rw [hs] at h
      by_cases hn : n = 0
      · simp [hn] at h
      · simp [hn] at h
        exact ih (i + 1) r h
    | otherError msg =>
      rw [hs] at h
      simp at h

/-- C4 (counterexample): a non-2xx response is a failure in the claim's
sense (`success=false`) but the code leaves `error=None` — the error
field is only populated on the exception path — so "a non-null error on
failure" is false. -/
theorem C4_non2xx_failure_has_no_error :
    (HttpClient.fetch true 3 (scriptResp 500) "https://acme.com/careers").success
        = false ∧
      (HttpClient.fetch true 3 (scriptResp 500)
          "https://acme.com/careers").error = none ∧
      (HttpClient.fetch true 3 (scriptResp 500)
          "https://acme.com/careers").status_code = 500 :=
  ⟨rfl, rfl, rfl⟩

/-- C4 (amended): `fetch` is total on the modelled outcomes and
  * every exception-path failure (timeout/DNS/reset exhausting retries, a
    non-retryable exception, or an uninitialized client session) yields
    `success=false`, `status_code=0` and a non-null `error`;
  * a received response (2xx or not) yields its status code, `success`
    exactly for 2xx, and `error=None`;
  * `status_code=0` holds exactly when no HTTP response was received,
    provided real responses carry a nonzero status code. -/
theorem C4_fetch_failure_amended (ci : Bool) (mr : Nat)
    (script : Nat → NetAttempt) (url : String)
    (hscript : ∀ i r, script i = NetAttempt.response r → r.status_code ≠ 0) :
    (∀ e, (fetchWithRetry ci mr script).1 = Except.error e →
        (HttpClient.fetch ci mr script url).status_code = 0 ∧
          (HttpClient.fetch ci mr script url).success = false ∧
          (HttpClient.fetch ci mr script url).error = some e) ∧
      (∀ r, (fetchWithRetry ci mr script).1 = Except.ok r →
        (HttpClient.fetch ci mr script url).status_code = r.status_code ∧
          (HttpClient.fetch ci mr script url).success = is2xx r.status_code ∧
          (HttpClient.fetch ci mr script url).error = none) ∧
      ((HttpClient.fetch ci mr script url).status_code = 0 ↔
        ∃ e, (fetchWithRetry ci mr script).1 = Except.error e) := by
  refine ⟨?_, ?_, ?_⟩
  · intro e he
    simp [HttpClient.fetch, he]
  · intro r hr
    simp [HttpClient.fetch, hr]
  · cases hfw : (fetchWithRetry ci mr script).1 with
    | ok r =>
      have hr0 : r.status_code ≠ 0 := by
        unfold fetchWithRetry at hfw
        by_cases hci : ci
        · simp [hci] at hfw
          obtain ⟨k, hk⟩ := tenacityRun_ok_mem script mr 0 r hfw
          exact hscript k r hk
        · simp [hci] at hfw
      constructor
      · intro h0
        simp [HttpClient.fetch, hfw] at h0
        exact absurd h0 hr0
      · rintro ⟨e, he⟩
        simp at he
    | error e =>
      constructor
      · intro _
        exact ⟨e, rfl⟩
      · intro _
        simp [HttpClient.fetch, hfw]

/-- Witness for C4's amended statement: an all-200 script satisfies the
status-code hypothesis and the response conjunct yields `error = none`. -/
theorem C4_fetch_failure_amended_witness :
    (HttpClient.fetch true 3 (scriptResp 200) "https://acme.com/careers").error
      = none :=
  ((C4_fetch_failure_amended true 3 (scriptResp 200) "https://acme.com/careers"
      (fun _ r h => by
        cases h
        decide)).2.1
    { status_code := 200, content := [], headers := [] } rfl).2.2

/-- C5 (divergence evaluation): with `max_retries = 3`, a script whose
first attempt times out and whose second returns HTTP 200 performs two
attempts — one completed retry — yet the returned `retry_count` is 0: the
local counter is initialized and threaded but never incremented. -/
theorem C5_retry_count_is_always_zero :
    tenacityRun scriptTimeoutThenOk 3 0 =
        (Except.ok { status_code := 200, content := [], headers := [] }, 2) ∧
      (HttpClient.fetch true 3 scriptTimeoutThenOk
          "https://acme.com/careers").retry_count = 0 ∧
      (HttpClient.fetch true 3 scriptTimeoutThenOk
          "https://acme.com/careers").success = true :=
  ⟨rfl, rfl, rfl⟩

/-! ## C8: closing stage logs -/

/-- C8 (counterexample): with two open `parse` logs, `complete_stage`
walks the list from the front and closes the oldest open match (index 0),
leaving the most recent open log (index 1) untouched — contradicting
"closes the most recent open StageLog". -/
theorem C8_closes_oldest_open_log :
    complete_stage "parse" 5 [] "completed" 10 twoOpenLogs =
        [{ stage := "parse", started_at := 0, completed_at := some 10,
           status := "completed", items_out := 5, duration_seconds := some 10 },
         { stage := "parse", started_at := 1 }] ∧
      (complete_stage "parse" 5 [] "completed" 10 twoOpenLogs)[1]? =
        some { stage := "parse", started_at := 1 } := by
  refine ⟨by decide, by decide⟩

/-- C8 (amended): `complete_stage` closes the first (oldest) open log
with the given name — under the invariant that at most one log per name
is open, this is the unique open one — setting `completed_at`,
`items_out`, `status` and the duration; when no open log with that name
exists it returns the list unchanged (and, being a total function, never
raises). -/
theorem C8_complete_stage_amended (stage : String) (items_out : Nat)
    (errors : List String) (status : String) (now : Int) :
    (∀ logs : List StageLog,
        (∀ l ∈ logs, l.stage = stage → l.completed_at ≠ none) →
        complete_stage stage items_out errors status now logs = logs) ∧
      (∀ (pre post : List StageLog) (l : StageLog),
        (∀ l' ∈ pre, l'.stage = stage → l'.completed_at ≠ none) →
        l.stage = stage → l.completed_at = none →
        complete_stage stage items_out errors status now (pre ++ l :: post) =
          pre ++ ({ l with
            completed_at := some now
            items_out := items_out
            status := status
            errors := if errors ≠ [] then errors else l.errors
            duration_seconds := some (now - l.started_at) } :: post)) := by
  constructor
  · intro logs
    induction logs with
    | nil => intro _; rfl
    | cons hd tl ih =>
      intro hall
      unfold complete_stage
      have hne : ¬(hd.stage = stage ∧ hd.completed_at = none) := by
        intro ⟨h1, h2⟩
        exact hall hd (by simp) h1 h2
      simp only [hne, if_false]
      rw [ih (fun l hl => hall l (by simp [hl]))]
  · intro pre
    induction pre with
    | nil =>
      intro post l _ hst hop
      unfold complete_stage
      simp [hst, hop]
    | cons hd tl ih =>
      intro post l hall hst hop
      have hne : ¬(hd.stage = stage ∧ hd.completed_at = none) := by
        intro ⟨h1, h2⟩
        exact hall hd (by simp) h1 h2
      show complete_stage stage items_out errors status now
        (hd :: (tl ++ l :: post)) = _
      unfold complete_stage
      simp only [hne, if_false]
      rw [ih post l (fun l' hl' => hall l' (by simp [hl'])) hst hop]
      simp

/-- Witness for C8's amended statement: a list with no open `parse` log
is returned unchanged. -/
theorem C8_complete_stage_amended_witness :
    complete_stage "parse" 5 [] "completed" 10
        [{ stage := "collect", started_at := 0 }] =
      [{ stage := "collect", started_at := 0 }] :=
  (C8_complete_stage_amended "parse" 5 [] "completed" 10).1
    [{ stage := "collect", started_at := 0 }] (by decide)

/-! ## C9: the planner and URL normalization -/

/-- C9 (counterexample): the planner emits exactly one task for the
enabled Scenario-A source, but the task's `url` field is the configured
URL unchanged — it is not the normalized form (normalization happens
later, when the collect stage computes the snapshot's `canonical_url`). -/
theorem C9_task_url_is_not_normalized :
    plan_sources [acmeConfig] = [FetchTask.from_source_config acmeConfig] ∧
      (FetchTask.from_source_config acmeConfig).url =
        "https://ACME.com/careers/?utm_source=x" ∧
      (FetchTask.from_source_config acmeConfig).original_url =
        "https://ACME.com/careers/?utm_source=x" ∧
      normalize_url "https://ACME.com/careers/?utm_source=x" =
        "https://acme.com/careers" ∧
      (FetchTask.from_source_config acmeConfig).url ≠
        normalize_url "https://ACME.com/careers/?utm_source=x" := by
  refine ⟨rfl, rfl, rfl, by decide, by decide⟩

/-- C9 (amended): the planner produces no task for disabled sources and
exactly one task per enabled source in configuration order, with both
`original_url` and `url` equal to the configured (pre-normalization)
URL; the normalized form only appears in the collect stage's
`canonical_url`. -/
theorem C9_planner_amended (sources : List SourceConfig) :
    plan_sources sources =
        (sources.filter (fun s => s.enabled)).map FetchTask.from_source_config ∧
      (∀ s : SourceConfig,
        (FetchTask.from_source_config s).original_url = s.url ∧
          (FetchTask.from_source_config s).url = s.url) ∧
      (∀ t ∈ plan_sources sources,
        snapshotCanonicalUrl t = normalize_url t.original_url) := by
  have heq : plan_sources sources =
      (sources.filter (fun s => s.enabled)).map FetchTask.from_source_config := by
    induction sources with
    | nil => rfl
    | cons hd tl ih =>
      by_cases he : hd.enabled
      · simp [plan_sources, he] at ih ⊢
        exact ih
      · simp [plan_sources, he] at ih ⊢
        exact ih
  refine ⟨heq, fun s => ⟨rfl, rfl⟩, ?_⟩
  intro t ht
  rw [heq] at ht
  simp only [List.mem_map, List.mem_filter] at ht
  obtain ⟨s, _, hts⟩ := ht
  rw [← hts]
  rfl

/-! ## Helper lemmas towards C6: characters and list splitting -/

/-- Characters are equal iff their code points are. -/
theorem char_eq_iff_toNat {a b : Char} : a = b ↔ a.toNat = b.toNat :=
  ⟨fun h => h ▸ rfl, fun h => Char.ext (UInt32.toNat.inj h)⟩

/-- Character order in terms of code points. -/
theorem char_le_iff_toNat {a b : Char} : a ≤ b ↔ a.toNat ≤ b.toNat := by
  rw [Char.le_def, UInt32.le_def, BitVec.le_def]
  rfl

/-- Code point of `Char.ofNat` below the surrogate range. -/
theorem char_toNat_ofNat {n : Nat} (h : n < 0xd800) : (Char.ofNat n).toNat = n := by
  simp only [Char.ofNat]
  rw [dif_pos (Or.inl h)]
  rfl

/-- Code-point formula for `asciiLowerChar`. -/
theorem asciiLowerChar_toNat (c : Char) :
    (asciiLowerChar c).toNat =
      if 65 ≤ c.toNat ∧ c.toNat ≤ 90 then c.toNat + 32 else c.toNat := by
  unfold asciiLowerChar
  by_cases h : 65 ≤ c.toNat ∧ c.toNat ≤ 90
  · rw [if_pos h, if_pos h, char_toNat_ofNat (by omega)]
  · rw [if_neg h, if_neg h]

/-- Either lowering leaves a character unchanged, or the character was an
uppercase letter and the result is the matching lowercase letter. -/
theorem asciiLowerChar_cases (c : Char) :
    asciiLowerChar c = c ∨
      ((asciiLowerChar c).toNat = c.toNat + 32 ∧ 65 ≤ c.toNat ∧ c.toNat ≤ 90) := by
  by_cases h : 65 ≤ c.toNat ∧ c.toNat ≤ 90
  · right
    rw [asciiLowerChar_toNat, if_pos h]
    exact ⟨rfl, h.1, h.2⟩
  · left
    rw [char_eq_iff_toNat, asciiLowerChar_toNat, if_neg h]

/-- Lowering is idempotent. -/
theorem asciiLowerChar_idem (c : Char) :
    asciiLowerChar (asciiLowerChar c) = asciiLowerChar c := by
  rw [char_eq_iff_toNat]
  simp only [asciiLowerChar_toNat]
  split_ifs <;> omega

/-- Lowering a list is idempotent. -/
theorem asciiLower_idem (l : List Char) :
    asciiLower (asciiLower l) = asciiLower l := by
  unfold asciiLower
  rw [List.map_map]
  exact List.map_congr_left (fun c _ => asciiLowerChar_idem c)

/-- Lowering a nonempty list is nonempty. -/
theorem asciiLower_ne_nil {l : List Char} (h : l ≠ []) : asciiLower l ≠ [] := by
  cases l with
  | nil => exact absurd rfl h
  | cons c t => simp [asciiLower]

/-- UInt32 order in terms of `toNat`. -/
theorem uint32_le_toNat {a b : UInt32} : a ≤ b ↔ a.toNat ≤ b.toNat := by
  rw [UInt32.le_def, BitVec.le_def]
  exact Iff.rfl

/-- Code-point characterization of `Char.isAlpha`. -/
theorem char_isAlpha_iff (c : Char) :
    c.isAlpha = true ↔
      (65 ≤ c.toNat ∧ c.toNat ≤ 90) ∨ (97 ≤ c.toNat ∧ c.toNat ≤ 122) := by
  unfold Char.isAlpha Char.isUpper Char.isLower
  rw [Bool.or_eq_true, Bool.and_eq_true, Bool.and_eq_true,
    decide_eq_true_eq, decide_eq_true_eq, decide_eq_true_eq,
    decide_eq_true_eq, ge_iff_le, ge_iff_le, uint32_le_toNat,
    uint32_le_toNat, uint32_le_toNat, uint32_le_toNat]
  exact Iff.rfl

/-- Code-point characterization of `Char.isDigit`. -/
theorem char_isDigit_iff (c : Char) :
    c.isDigit = true ↔ 48 ≤ c.toNat ∧ c.toNat ≤ 57 := by
  unfold Char.isDigit
  rw [Bool.and_eq_true, decide_eq_true_eq, decide_eq_true_eq, ge_iff_le,
    uint32_le_toNat, uint32_le_toNat]
  exact Iff.rfl

/-- Lowering preserves `isAlpha`. -/
theorem asciiLowerChar_isAlpha {c : Char} (h : c.isAlpha = true) :
    (asciiLowerChar c).isAlpha = true := by
  rw [char_isAlpha_iff] at h ⊢
  rw [asciiLowerChar_toNat]
  split_ifs <;> omega

/-- Lowering preserves scheme characters. -/
theorem asciiLowerChar_schemeChar {c : Char} (h : schemeChar c = true) :
    schemeChar (asciiLowerChar c) = true := by
  simp only [schemeChar, Bool.or_eq_true, decide_eq_true_eq] at h ⊢
  rcases h with (((halpha | hdigit) | hplus) | hminus) | hdot
  · exact Or.inl (Or.inl (Or.inl (Or.inl (asciiLowerChar_isAlpha halpha))))
  · have hd := (char_isDigit_iff c).mp hdigit
    have hfix : asciiLowerChar c = c := by
      rw [char_eq_iff_toNat, asciiLowerChar_toNat, if_neg (by omega)]
    rw [hfix]
    exact Or.inl (Or.inl (Or.inl (Or.inr hdigit)))
  · subst hplus; decide
  · subst hminus; decide
  · subst hdot; decide

/-- A character whose code point is outside the lowercase range stays
distinct from `c` after lowering when it was distinct before: used with
separators like `/`, `?`, `#`, `&`, `=`, `:`. -/
theorem asciiLowerChar_ne {c d : Char} (hne : c ≠ d)
    (hd : d.toNat < 97 ∨ 122 < d.toNat) : asciiLowerChar c ≠ d := by
  rcases asciiLowerChar_cases c with hc | ⟨h1, h2, h3⟩
  · rw [hc]; exact hne
  · intro he
    rw [char_eq_iff_toNat] at he
    omega

/-- Lowering preserves `goodUrlChar`. -/
theorem asciiLowerChar_good {c : Char} (h : goodUrlChar c = true) :
    goodUrlChar (asciiLowerChar c) = true := by
  have hp : Char.toNat '%' = 37 := rfl
  have hs : Char.toNat ';' = 59 := rfl
  have hl : Char.toNat '[' = 91 := rfl
  have hr : Char.toNat ']' = 93 := rfl
  simp only [goodUrlChar, Bool.and_eq_true, decide_eq_true_eq, ne_eq,
    Bool.not_eq_true', decide_eq_false_iff_not, char_eq_iff_toNat, hp, hs,
    hl, hr, asciiLowerChar_toNat] at h ⊢
  split_ifs <;> omega

/-! ### `takeUntil` -/

/-- Unfolding equation of `takeUntil` on a cons cell. -/
theorem takeUntil_cons (p : Char → Bool) (c : Char) (rest : List Char) :
    takeUntil p (c :: rest) =
      if p c then ([], c :: rest)
      else (c :: (takeUntil p rest).1, (takeUntil p rest).2) := rfl

/-- The prefix and remainder of `takeUntil` rebuild the input. -/
theorem takeUntil_append_eq (p : Char → Bool) (l : List Char) :
    (takeUntil p l).1 ++ (takeUntil p l).2 = l := by
  induction l with
  | nil => rfl
  | cons c rest ih =>
    unfold takeUntil
    by_cases hc : p c
    · simp [hc]
    · simp [hc, ih]

/-- No character of the `takeUntil` prefix satisfies the predicate. -/
theorem takeUntil_fst_not (p : Char → Bool) (l : List Char) :
    ∀ c ∈ (takeUntil p l).1, p c = false := by
  induction l with
  | nil => intro c hc; simp [takeUntil] at hc
  | cons d rest ih =>
    intro c hc
    unfold takeUntil at hc
    by_cases hd : p d
    · simp [hd] at hc
    · simp [hd] at hc
      rcases hc with hc | hc
      · subst hc; simpa using hd
      · exact ih c hc

/-- The head of the `takeUntil` remainder satisfies the predicate. -/
theorem takeUntil_snd_head (p : Char → Bool) (l : List Char) :
    ∀ b B, (takeUntil p l).2 = b :: B → p b = true := by
  induction l with
  | nil => intro b B h; simp [takeUntil] at h
  | cons d rest ih =>
    intro b B h
    unfold takeUntil at h
    by_cases hd : p d
    · simp [hd] at h
      rw [← h.1]
      exact hd
    · simp [hd] at h
      exact ih b B h

/-- `takeUntil` on a predicate-free list returns the list unsplit. -/
theorem takeUntil_eq_none (p : Char → Bool) (A : List Char)
    (hA : ∀ c ∈ A, p c = false) : takeUntil p A = (A, []) := by
  induction A with
  | nil => rfl
  | cons c rest ih =>
    unfold takeUntil
    rw [if_neg (by simpa using hA c (by simp))]
    rw [ih (fun d hd => hA d (by simp [hd]))]

/-- `takeUntil` splits at the first matching character. -/
theorem takeUntil_append_found (p : Char → Bool) (A B : List Char) (b : Char)
    (hA : ∀ c ∈ A, p c = false) (hb : p b = true) :
    takeUntil p (A ++ b :: B) = (A, b :: B) := by
  induction A with
  | nil => simp [takeUntil_cons, hb]
  | cons c rest ih =>
    have hc : p c = false := hA c (by simp)
    rw [List.cons_append, takeUntil_cons, if_neg (by simp [hc]),
      ih (fun d hd => hA d (by simp [hd]))]

/-! ### `splitSep` and `joinSep` -/

/-- Unfolding equation of `splitSep` on a cons cell. -/
theorem splitSep_cons (sep c : Char) (rest : List Char) :
    splitSep sep (c :: rest) =
      match splitSep sep rest with
      | [] => [[]]
      | h :: t => if c = sep then [] :: h :: t else (c :: h) :: t := rfl

/-- `splitSep` never returns the empty list of chunks. -/
theorem splitSep_ne_nil (sep : Char) (l : List Char) : splitSep sep l ≠ [] := by
  cases l with
  | nil => simp [splitSep]
  | cons c rest =>
    rw [splitSep_cons]
    cases h : splitSep sep rest with
    | nil => simp
    | cons hd tl => by_cases hc : c = sep <;> simp [hc]

/-- Characters of a chunk come from the split list. -/
theorem splitSep_chunk_mem (sep : Char) (l : List Char) :
    ∀ chunk ∈ splitSep sep l, ∀ c ∈ chunk, c ∈ l := by
  induction l with
  | nil =>
    intro chunk hch c hc
    simp [splitSep] at hch
    subst hch
    simp at hc
  | cons d rest ih =>
    intro chunk hch c hc
    rw [splitSep_cons] at hch
    cases h : splitSep sep rest with
    | nil => exact absurd h (splitSep_ne_nil sep rest)
    | cons hd tl =>
      rw [h] at hch
      by_cases hd' : d = sep
      · simp only [if_pos hd'] at hch
        rcases List.mem_cons.mp hch with hch | hch
        · subst hch; simp at hc
        · have : c ∈ rest := ih chunk (h ▸ hch) c hc
          exact List.mem_cons_of_mem d this
      · simp only [if_neg hd'] at hch
        rcases List.mem_cons.mp hch with hch | hch
        · subst hch
          rcases List.mem_cons.mp hc with hc | hc
          · subst hc; exact List.mem_cons_self c rest
          · have : c ∈ rest := ih hd (h ▸ List.mem_cons_self hd tl) c hc
            exact List.mem_cons_of_mem d this
        · have : c ∈ rest := ih chunk (h ▸ List.mem_cons_of_mem hd hch) c hc
          exact List.mem_cons_of_mem d this

/-- Chunks contain no separator. -/
theorem splitSep_chunk_no_sep (sep : Char) (l : List Char) :
    ∀ chunk ∈ splitSep sep l, ∀ c ∈ chunk, c ≠ sep := by
  induction l with
  | nil =>
    intro chunk hch c hc
    simp [splitSep] at hch
    subst hch
    simp at hc
  | cons d rest ih =>
    intro chunk hch c hc
    rw [splitSep_cons] at hch
    cases h : splitSep sep rest with
    | nil => exact absurd h (splitSep_ne_nil sep rest)
    | cons hd tl =>
      rw [h] at hch
      by_cases hd' : d = sep
      · simp only [if_pos hd'] at hch
        rcases List.mem_cons.mp hch with hch | hch
        · subst hch; simp at hc
        · exact ih chunk (h ▸ hch) c hc
      · simp only [if_neg hd'] at hch
        rcases List.mem_cons.mp hch with hch | hch
        · subst hch
          rcases List.mem_cons.mp hc with hc | hc
          · subst hc; exact hd'
          · exact ih hd (h ▸ List.mem_cons_self hd tl) c hc
        · exact ih chunk (h ▸ List.mem_cons_of_mem hd hch) c hc

/-- Splitting a separator-free list yields one chunk. -/
theorem splitSep_no_sep (sep : Char) (x : List Char)
    (h : ∀ c ∈ x, c ≠ sep) : splitSep sep x = [x] := by
  induction x with
  | nil => rfl
  | cons c rest ih =>
    rw [splitSep_cons, ih (fun d hd => h d (by simp [hd]))]
    dsimp only
    rw [if_neg (h c (by simp))]

/-- Splitting after a leading separator-free chunk. -/
theorem splitSep_append_sep (sep : Char) (x rest : List Char)
    (h : ∀ c ∈ x, c ≠ sep) :
    splitSep sep (x ++ sep :: rest) = x :: splitSep sep rest := by
  induction x with
  | nil =>
    simp only [List.nil_append]
    rw [splitSep_cons]
    cases hs : splitSep sep rest with
    | nil => exact absurd hs (splitSep_ne_nil sep rest)
    | cons hd tl => simp
  | cons c t ih =>
    rw [List.cons_append, splitSep_cons, ih (fun d hd => h d (by simp [hd]))]
    dsimp only
    rw [if_neg (h c (by simp))]

/-- Unfolding equation of `joinSep` on a cons with a nonempty tail. -/
theorem joinSep_cons (sep : Char) (x : List Char) (ys : List (List Char))
    (h : ys ≠ []) : joinSep sep (x :: ys) = x ++ sep :: joinSep sep ys := by
  cases ys with
  | nil => exact absurd rfl h
  | cons y t => rfl

/-- Splitting undoes joining for nonempty, separator-free chunk lists. -/
theorem splitSep_joinSep (sep : Char) (pieces : List (List Char))
    (hne : pieces ≠ [])
    (hfree : ∀ piece ∈ pieces, ∀ c ∈ piece, c ≠ sep) :
    splitSep sep (joinSep sep pieces) = pieces := by
  induction pieces with
  | nil => exact absurd rfl hne
  | cons x ys ih =>
    cases ys with
    | nil => exact splitSep_no_sep sep x (hfree x (by simp))
    | cons y t =>
      rw [joinSep_cons sep x (y :: t) (by simp)]
      rw [splitSep_append_sep sep x _ (hfree x (by simp))]
      rw [ih (by simp) (fun p hp => hfree p (by simp [hp]))]

/-- Characters of a join come from the chunks or are the separator. -/
theorem mem_joinSep (sep : Char) (pieces : List (List Char)) (c : Char)
    (h : c ∈ joinSep sep pieces) : c = sep ∨ ∃ piece ∈ pieces, c ∈ piece := by
  induction pieces with
  | nil => simp [joinSep] at h
  | cons x ys ih =>
    cases ys with
    | nil =>
      simp only [joinSep] at h
      exact Or.inr ⟨x, by simp, h⟩
    | cons y t =>
      rw [joinSep_cons sep x (y :: t) (by simp)] at h
      rcases List.mem_append.mp h with h | h
      · exact Or.inr ⟨x, by simp, h⟩
      · rcases List.mem_cons.mp h with h | h
        · exact Or.inl h
        · rcases ih h with h | ⟨p, hp, hc⟩
          · exact Or.inl h
          · exact Or.inr ⟨p, by simp [hp], hc⟩

/-! ### `rstripChar` and `pathTransform` -/

/-- Stripping trailing characters yields a prefix. -/
theorem rstripChar_isPrefixOf (ch : Char) (l : List Char) :
    rstripChar ch l <+: l := by
  obtain ⟨t, ht⟩ := @List.dropWhile_suffix _ l.reverse (· = ch)
  exact ⟨t.reverse, by
    rw [rstripChar, ← List.reverse_append, ht, List.reverse_reverse]⟩

/-- The last character after stripping is not the stripped character. -/
theorem rstripChar_getLast_ne (ch : Char) (l : List Char) :
    ∀ c, (rstripChar ch l).getLast? = some c → c ≠ ch := by
  intro c hc
  unfold rstripChar at hc
  rw [List.getLast?_reverse] at hc
  have h := List.head?_dropWhile_not (· = ch) l.reverse
  rw [hc] at h
  simpa using h

/-- Stripping keeps the head (or empties the list). -/
theorem rstripChar_head (ch : Char) (l : List Char) :
    rstripChar ch l = [] ∨ (rstripChar ch l).head? = l.head? := by
  obtain ⟨t, ht⟩ := rstripChar_isPrefixOf ch l
  cases hr : rstripChar ch l with
  | nil => exact Or.inl rfl
  | cons a s =>
    right
    rw [hr] at ht
    rw [← ht]
    simp

/-- Characters survive `pathTransform` membership-wise. -/
theorem pathTransform_mem (path : List Char) (c : Char)
    (h : c ∈ pathTransform path) : c ∈ path := by
  unfold pathTransform at h
  split at h
  · exact (rstripChar_isPrefixOf '/' path).subset h
  · exact h

/-- `pathTransform` keeps the root-or-absolute shape of the path. -/
theorem pathTransform_shape (path : List Char)
    (h : path = [] ∨ path.head? = some '/') :
    pathTransform path = [] ∨ (pathTransform path).head? = some '/' := by
  unfold pathTransform
  split
  · rcases rstripChar_head '/' path with hr | hr
    · exact Or.inl hr
    · rcases h with h | h
      · subst h; simp [rstripChar]
      · exact Or.inr (hr.trans h)
  · exact h

/-- `pathTransform` is idempotent. -/
theorem pathTransform_idem (path : List Char) :
    pathTransform (pathTransform path) = pathTransform path := by
  by_cases h : path ≠ ['/'] ∧ endsWithChar '/' path
  · have h1 : pathTransform path = rstripChar '/' path := by
      unfold pathTransform
      rw [if_pos h]
    rw [h1]
    unfold pathTransform
    rw [if_neg]
    intro ⟨_, hend⟩
    unfold endsWithChar at hend
    cases hg : (rstripChar '/' path).getLast? with
    | none => rw [hg] at hend; cases hend
    | some c =>
      rw [hg] at hend
      have : c = '/' := by simpa using hend
      exact rstripChar_getLast_ne '/' path c hg this
  · have h1 : pathTransform path = path := by
      unfold pathTransform
      rw [if_neg h]
    rw [h1, h1]

/-! ### `unquote_plus` on escape-free ASCII input -/

/-- UTF-8 encodes ASCII in one byte. -/
theorem utf8EncodeChar_ascii {c : Char} (h : c.toNat < 0x80) :
    utf8EncodeChar c = [c.toNat] := by
  unfold utf8EncodeChar
  rw [if_pos h]

/-- Decoding a list of ASCII bytes is `Char.ofNat` pointwise. -/
theorem utf8DecodeGo_ascii :
    ∀ (fuel : Nat) (bs : List Nat), bs.length ≤ fuel →
      (∀ b ∈ bs, b < 0x80) → utf8DecodeGo fuel bs = bs.map Char.ofNat := by
  intro fuel
  induction fuel with
  | zero =>
    intro bs hlen _
    have hbs : bs = [] := List.length_eq_zero.mp (Nat.le_zero.mp hlen)
    subst hbs
    rfl
  | succ n ih =>
    intro bs hlen hb
    cases bs with
    | nil => rfl
    | cons b rest =>
      unfold utf8DecodeGo
      rw [if_pos (hb b (by simp))]
      rw [ih rest (by simp only [List.length_cons] at hlen; omega)
        (fun x hx => hb x (by simp [hx]))]
      rfl

/-- Percent-decoding of escape-free ASCII text is the identity on bytes. -/
theorem pctDecodeGo_ascii :
    ∀ (fuel : Nat) (l : List Char), l.length ≤ fuel →
      (∀ c ∈ l, c ≠ '%' ∧ c.toNat < 0x80) →
      pctDecodeGo fuel l = l.map Char.toNat := by
  intro fuel
  induction fuel with
  | zero =>
    intro l hlen _
    have hl : l = [] := List.length_eq_zero.mp (Nat.le_zero.mp hlen)
    subst hl
    rfl
  | succ n ih =>
    intro l hlen hc
    cases l with
    | nil => rfl
    | cons c rest =>
      unfold pctDecodeGo
      rw [if_neg (hc c (by simp)).1]
      rw [utf8EncodeChar_ascii (hc c (by simp)).2]
      rw [ih rest (by simp only [List.length_cons] at hlen; omega)
        (fun x hx => hc x (by simp [hx]))]
      rfl

/-- `unquote` is the identity on escape-free ASCII text. -/
theorem pyUnquote_id (l : List Char)
    (h : ∀ c ∈ l, c ≠ '%' ∧ c.toNat < 0x80) : pyUnquote l = l := by
  unfold pyUnquote pctDecodeBytes
  rw [pctDecodeGo_ascii l.length l le_rfl h]
  unfold utf8Decode
  rw [List.length_map]
  rw [utf8DecodeGo_ascii l.length (l.map Char.toNat) (by simp)
    (by
      intro b hb
      obtain ⟨c, hcl, hcb⟩ := List.mem_map.mp hb
      rw [← hcb]
      exact (h c hcl).2)]
  rw [List.map_map]
  have hmap : l.map (Char.ofNat ∘ Char.toNat) = l.map id :=
    List.map_congr_left (fun c _ => by simp [Function.comp])
  rw [hmap, List.map_id]

/-- The plus-to-space substitution of `unquote_plus`. -/
theorem unquotePlus_eq_plusToSpace (l : List Char)
    (h : ∀ c ∈ l, c ≠ '%' ∧ c.toNat < 0x80) :
    unquotePlus l = l.map (fun c => if c = '+' then ' ' else c) := by
  unfold unquotePlus
  apply pyUnquote_id
  intro c hc
  obtain ⟨d, hdl, hdc⟩ := List.mem_map.mp hc
  rw [← hdc]
  by_cases hd : d = '+'
  · rw [if_pos hd]
    exact ⟨by decide, by decide⟩
  · rw [if_neg hd]
    exact ⟨(h d hdl).1, (h d hdl).2⟩

/-- `unquote_plus` is the identity on plus- and escape-free ASCII text. -/
theorem unquotePlus_id (l : List Char)
    (h : ∀ c ∈ l, c ≠ '%' ∧ c ≠ '+' ∧ c.toNat < 0x80) : unquotePlus l = l := by
  rw [unquotePlus_eq_plusToSpace l (fun c hc => ⟨(h c hc).1, (h c hc).2.2⟩)]
  have hmap : l.map (fun c => if c = '+' then ' ' else c) = l.map id :=
    List.map_congr_left (fun c hc => by simp [(h c hc).2.1])
  rw [hmap, List.map_id]

/-- Witness for C9's amended statement on the Scenario-A configuration. -/
theorem C9_planner_amended_witness :
    plan_sources [acmeConfig] = [FetchTask.from_source_config acmeConfig] ∧
      snapshotCanonicalUrl (FetchTask.from_source_config acmeConfig) =
        normalize_url (FetchTask.from_source_config acmeConfig).original_url :=
  ⟨by simpa [acmeConfig] using (C9_planner_amended [acmeConfig]).1,
    (C9_planner_amended [acmeConfig]).2.2 _ (by decide)⟩

/-! ### `parse_qsl` / `parse_qs` round trip on a rebuilt query -/

/-- The query pieces of `buildQuery` under nonempty value lists. -/
theorem buildQuery_eq_join (A : List (List Char × List (List Char)))
    (h : ∀ kv ∈ A, kv.2 ≠ []) :
    buildQuery A = joinSep '&' (A.map (fun kv => kv.1 ++ '=' :: kv.2.headI)) := by
  unfold buildQuery
  congr 1
  induction A with
  | nil => rfl
  | cons kv A' ih =>
    obtain ⟨v, vt, hv⟩ : ∃ v vt, kv.2 = v :: vt := by
      cases hk : kv.2 with
      | nil => exact absurd hk (h kv (by simp))
      | cons v vt => exact ⟨v, vt, rfl⟩
    rw [List.filterMap_cons, List.map_cons, hv]
    simp only [List.headI]
    rw [ih (fun kv' hkv' => h kv' (by simp [hkv']))]
    rfl

/-- One rebuilt `k=v` piece parses back to `(k, v)`. -/
theorem parseQslChunk_piece (k v : List Char)
    (hk : ∀ c ∈ k, c ≠ '&' ∧ c ≠ '=' ∧ c ≠ '%' ∧ c ≠ '+' ∧ c.toNat < 0x80)
    (hv : ∀ c ∈ v, c ≠ '&' ∧ c ≠ '%' ∧ c ≠ '+' ∧ c.toNat < 0x80) :
    parseQslChunk (k ++ '=' :: v) = some (k, v) := by
  have htu : takeUntil (· = '=') (k ++ '=' :: v) = (k, '=' :: v) :=
    takeUntil_append_found _ k v '='
      (fun c hc => by simp [(hk c hc).2.1]) (by simp)
  obtain ⟨c, rest, hcr⟩ : ∃ c rest, k ++ '=' :: v = c :: rest := by
    cases k with
    | nil => exact ⟨'=', v, rfl⟩
    | cons c k' => exact ⟨c, k' ++ '=' :: v, rfl⟩
  unfold parseQslChunk
  rw [hcr]
  dsimp only
  rw [← hcr, htu]
  dsimp only
  rw [unquotePlus_id k (fun c hc => ⟨(hk c hc).2.2.1, (hk c hc).2.2.2.1,
    (hk c hc).2.2.2.2⟩)]
  rw [unquotePlus_id v (fun c hc => ⟨(hv c hc).2.1, (hv c hc).2.2.1,
    (hv c hc).2.2.2⟩)]

/-- Parsing a rebuilt query recovers the key/first-value pairs. -/
theorem parseQsl_buildQuery (A : List (List Char × List (List Char)))
    (hgood : ∀ kv ∈ A, goodQueryEntry kv) :
    parseQsl (buildQuery A) = A.map (fun kv => (kv.1, kv.2.headI)) := by
  induction A with
  | nil => rfl
  | cons kv A' ih =>
    have hkv := hgood kv (by simp)
    obtain ⟨v, vt, hv⟩ : ∃ v vt, kv.2 = v :: vt := by
      cases hk : kv.2 with
      | nil => exact absurd hk hkv.1
      | cons v vt => exact ⟨v, vt, rfl⟩
    have hvhead : kv.2.headI = v := by rw [hv]; rfl
    have hkchars := hkv.2.1
    have hvchars : ∀ c ∈ v, c ≠ '&' ∧ c ≠ '%' ∧ c ≠ '+' ∧ c.toNat < 0x80 :=
      fun c hc => hkv.2.2 v (by rw [hv]; simp) c hc
    have hpiecefree : ∀ c ∈ kv.1 ++ '=' :: v, c ≠ '&' := by
      intro c hc
      rcases List.mem_append.mp hc with hc | hc
      · exact (hkchars c hc).1
      · rcases List.mem_cons.mp hc with hc | hc
        · subst hc; decide
        · exact (hvchars c hc).1
    rw [buildQuery_eq_join _ (fun kv' hkv' => (hgood kv' hkv').1)]
    rw [List.map_cons, hvhead]
    cases hA' : A'.map (fun kv => kv.1 ++ '=' :: kv.2.headI) with
    | nil =>
      have hA'nil : A' = [] := by
        cases A' with
        | nil => rfl
        | cons x xs => simp at hA'
      subst hA'nil
      unfold parseQsl
      simp only [joinSep]
      rw [splitSep_no_sep '&' _ hpiecefree]
      rw [List.filterMap_cons, parseQslChunk_piece kv.1 v hkchars hvchars]
      simp [hvhead]
    | cons p ps =>
      rw [joinSep_cons '&' _ _ (by simp)]
      unfold parseQsl
      rw [splitSep_append_sep '&' _ _ hpiecefree]
      rw [List.filterMap_cons, parseQslChunk_piece kv.1 v hkchars hvchars]
      dsimp only
      have hih := ih (fun kv' hkv' => hgood kv' (by simp [hkv']))
      unfold parseQsl at hih
      rw [buildQuery_eq_join _ (fun kv' hkv' => (hgood kv' (by simp [hkv'])).1)]
        at hih
      rw [hA'] at hih
      rw [hih, List.map_cons, hvhead]

/-! ### `parse_qs` as a fold of `dictAppend` -/

/-- Appending under a fresh key appends a singleton entry. -/
theorem dictAppend_fresh (d : List (List Char × List (List Char)))
    (k : List Char) (v : List Char) (h : ∀ kv ∈ d, kv.1 ≠ k) :
    dictAppend d k v = d ++ [(k, [v])] := by
  induction d with
  | nil => rfl
  | cons kv rest ih =>
    unfold dictAppend
    rw [if_neg (h kv (by simp))]
    rw [ih (fun kv' hkv' => h kv' (by simp [hkv']))]
    rfl

/-- Folding `dictAppend` over pairs with pairwise-distinct keys, all fresh
for the accumulator, appends singleton entries in order. -/
theorem foldl_dictAppend_nodup :
    ∀ (pairs : List (List Char × List Char))
      (acc : List (List Char × List (List Char))),
      (pairs.map (·.1)).Nodup →
      (∀ p ∈ pairs, ∀ kv ∈ acc, kv.1 ≠ p.1) →
      pairs.foldl (fun d kv => dictAppend d kv.1 kv.2) acc =
        acc ++ pairs.map (fun p => (p.1, [p.2])) := by
  intro pairs
  induction pairs with
  | nil => intro acc _ _; simp
  | cons p ps ih =>
    intro acc hnodup hfresh
    rw [List.foldl_cons]
    rw [dictAppend_fresh acc p.1 p.2 (fun kv hkv => hfresh p (by simp) kv hkv)]
    rw [List.map_cons] at hnodup
    rw [ih (acc ++ [(p.1, [p.2])]) (List.Nodup.of_cons hnodup)]
    · simp
    · intro q hq kv hkv
      rcases List.mem_append.mp hkv with hkv | hkv
      · exact hfresh q (by simp [hq]) kv hkv
      · have : kv = (p.1, [p.2]) := by simpa using hkv
        rw [this]
        intro he
        have : p.1 ∈ ps.map (·.1) := he ▸ List.mem_map_of_mem (·.1) hq
        exact (List.nodup_cons.mp hnodup).1 this

/-- Keys after one `dictAppend`: unchanged for a known key, appended for
a fresh one. -/
theorem dictAppend_keys (d : List (List Char × List (List Char)))
    (k : List Char) (v : List Char) :
    (dictAppend d k v).map (·.1) =
      if k ∈ d.map (·.1) then d.map (·.1) else d.map (·.1) ++ [k] := by
  induction d with
  | nil => simp [dictAppend]
  | cons kv rest ih =>
    unfold dictAppend
    by_cases h : kv.1 = k
    · rw [if_pos h]
      simp [h]
    · rw [if_neg h]
      simp only [List.map_cons]
      rw [ih]
      by_cases hk : k ∈ rest.map (·.1)
      · rw [if_pos hk, if_pos (by simp [hk])]
      · rw [if_neg hk, if_neg (by
          simp only [List.mem_cons]
          rintro (he | he)
          · exact h he.symm
          · exact hk he)]
        simp

/-- `dictAppend` keeps the keys duplicate-free. -/
theorem dictAppend_keys_nodup (d : List (List Char × List (List Char)))
    (k : List Char) (v : List Char) (h : (d.map (·.1)).Nodup) :
    ((dictAppend d k v).map (·.1)).Nodup := by
  rw [dictAppend_keys]
  split
  · exact h
  · rename_i hk
    rw [List.nodup_append]
    exact ⟨h, List.nodup_singleton k, by
      intro a ha hb
      rw [List.mem_singleton.mp hb] at ha
      exact hk ha⟩

/-- The fold of `dictAppend` keeps the keys duplicate-free. -/
theorem foldl_dictAppend_keys_nodup :
    ∀ (pairs : List (List Char × List Char))
      (acc : List (List Char × List (List Char))),
      (acc.map (·.1)).Nodup →
      ((pairs.foldl (fun d kv => dictAppend d kv.1 kv.2) acc).map (·.1)).Nodup := by
  intro pairs
  induction pairs with
  | nil => intro acc h; exact h
  | cons p ps ih =>
    intro acc h
    rw [List.foldl_cons]
    exact ih _ (dictAppend_keys_nodup acc p.1 p.2 h)

/-- `parse_qs` produces duplicate-free keys. -/
theorem parseQs_keys_nodup (q : List Char) : ((parseQs q).map (·.1)).Nodup :=
  foldl_dictAppend_keys_nodup (parseQsl q) [] (by simp)

/-- `dictAppend` preserves an entry invariant. -/
theorem dictAppend_inv {KeyP ValP : List Char → Prop}
    (d : List (List Char × List (List Char))) (k : List Char) (v : List Char)
    (hd : ∀ kv ∈ d, kv.2 ≠ [] ∧ KeyP kv.1 ∧ ∀ x ∈ kv.2, ValP x)
    (hk : KeyP k) (hv : ValP v) :
    ∀ kv ∈ dictAppend d k v, kv.2 ≠ [] ∧ KeyP kv.1 ∧ ∀ x ∈ kv.2, ValP x := by
  induction d with
  | nil =>
    intro kv hkv
    simp only [dictAppend, List.mem_singleton] at hkv
    subst hkv
    exact ⟨by simp, hk, fun x hx => by rw [List.mem_singleton.mp hx]; exact hv⟩
  | cons kv' rest ih =>
    intro kv hkv
    unfold dictAppend at hkv
    by_cases h : kv'.1 = k
    · rw [if_pos h] at hkv
      rcases List.mem_cons.mp hkv with hkv | hkv
      · subst hkv
        have h' := hd kv' (by simp)
        refine ⟨by simp, h'.2.1, ?_⟩
        intro x hx
        rcases List.mem_append.mp hx with hx | hx
        · exact h'.2.2 x hx
        · rw [List.mem_singleton.mp hx]; exact hv
      · exact hd kv (by simp [hkv])
    · rw [if_neg h] at hkv
      rcases List.mem_cons.mp hkv with hkv | hkv
      · rw [hkv]
        exact hd (kv'.1, kv'.2) (by simp)
      · exact ih (fun kv'' hkv'' => hd kv'' (by simp [hkv''])) kv hkv

/-- The fold of `dictAppend` preserves an entry invariant. -/
theorem foldl_dictAppend_inv {KeyP ValP : List Char → Prop} :
    ∀ (pairs : List (List Char × List Char))
      (acc : List (List Char × List (List Char))),
      (∀ kv ∈ acc, kv.2 ≠ [] ∧ KeyP kv.1 ∧ ∀ x ∈ kv.2, ValP x) →
      (∀ p ∈ pairs, KeyP p.1 ∧ ValP p.2) →
      ∀ kv ∈ pairs.foldl (fun d p => dictAppend d p.1 p.2) acc,
        kv.2 ≠ [] ∧ KeyP kv.1 ∧ ∀ x ∈ kv.2, ValP x := by
  intro pairs
  induction pairs with
  | nil => intro acc hacc _; exact hacc
  | cons p ps ih =>
    intro acc hacc hp
    rw [List.foldl_cons]
    exact ih _
      (dictAppend_inv acc p.1 p.2 hacc (hp p (by simp)).1 (hp p (by simp)).2)
      (fun p' hp' => hp p' (by simp [hp']))

/-- Characters surviving `unquote_plus` on escape-free ASCII input. -/
theorem unquotePlus_chars (l : List Char)
    (hl : ∀ c ∈ l, c ≠ '%' ∧ c.toNat < 0x80) :
    ∀ x ∈ unquotePlus l,
      (x = ' ' ∨ x ∈ l) ∧ x ≠ '+' ∧ x ≠ '%' ∧ x.toNat < 0x80 := by
  rw [unquotePlus_eq_plusToSpace l hl]
  intro x hx
  obtain ⟨d, hdl, hdx⟩ := List.mem_map.mp hx
  by_cases hd : d = '+'
  · rw [if_pos hd] at hdx
    rw [← hdx]
    exact ⟨Or.inl rfl, by decide, by decide, by decide⟩
  · rw [if_neg hd] at hdx
    rw [← hdx]
    exact ⟨Or.inr hdl, hd, (hl d hdl).1, (hl d hdl).2⟩

/-- The pairs of `parse_qsl` of a percent-free ASCII query satisfy the
character conditions of `goodQueryEntry`. -/
theorem parseQsl_entry_conds (q : List Char)
    (hq : ∀ c ∈ q, c ≠ '%' ∧ c.toNat < 0x80) :
    ∀ p ∈ parseQsl q,
      (∀ c ∈ p.1, c ≠ '&' ∧ c ≠ '=' ∧ c ≠ '%' ∧ c ≠ '+' ∧ c.toNat < 0x80) ∧
      (∀ c ∈ p.2, c ≠ '&' ∧ c ≠ '%' ∧ c ≠ '+' ∧ c.toNat < 0x80) := by
  intro p hp
  unfold parseQsl at hp
  obtain ⟨chunk, hchunk, hfn⟩ := List.mem_filterMap.mp hp
  have hmemq : ∀ c ∈ chunk, c ∈ q := splitSep_chunk_mem '&' q chunk hchunk
  have hnosep : ∀ c ∈ chunk, c ≠ '&' := splitSep_chunk_no_sep '&' q chunk hchunk
  have hchunkc : ∀ c ∈ chunk, c ≠ '%' ∧ c.toNat < 0x80 :=
    fun c hc => hq c (hmemq c hc)
  cases chunk with
  | nil => simp [parseQslChunk] at hfn
  | cons c0 rest =>
    unfold parseQslChunk at hfn
    dsimp only at hfn
    rcases htu : takeUntil (· = '=') (c0 :: rest) with ⟨name, rest2⟩
    rw [htu] at hfn
    have happ := takeUntil_append_eq (· = '=') (c0 :: rest)
    rw [htu] at happ
    have hname_mem : ∀ x ∈ name, x ∈ c0 :: rest := by
      intro x hx
      rw [← happ]
      exact List.mem_append.mpr (Or.inl hx)
    have hname_ne : ∀ x ∈ name, x ≠ '=' := by
      intro x hx
      have := takeUntil_fst_not (· = '=') (c0 :: rest)
      rw [htu] at this
      simpa using this x hx
    have hnamec : ∀ x ∈ name, x ≠ '%' ∧ x.toNat < 0x80 :=
      fun x hx => hchunkc x (hname_mem x hx)
    cases rest2 with
    | nil =>
      dsimp only at hfn
      injection hfn with hfn'
      rw [← hfn']
      constructor
      · intro x hx
        obtain ⟨hor, hplus, hpct, hascii⟩ := unquotePlus_chars name hnamec x hx
        rcases hor with hsp | hmem
        · subst hsp
          exact ⟨by decide, by decide, by decide, by decide, by decide⟩
        · exact ⟨hnosep x (hname_mem x hmem), hname_ne x hmem, hpct, hplus,
            hascii⟩
      · intro x hx
        simp at hx
    | cons e value =>
      dsimp only at hfn
      injection hfn with hfn'
      rw [← hfn']
      have hvalue_mem : ∀ x ∈ value, x ∈ c0 :: rest := by
        intro x hx
        rw [← happ]
        exact List.mem_append.mpr (Or.inr (by simp [hx]))
      have hvaluec : ∀ x ∈ value, x ≠ '%' ∧ x.toNat < 0x80 :=
        fun x hx => hchunkc x (hvalue_mem x hx)
      constructor
      · intro x hx
        obtain ⟨hor, hplus, hpct, hascii⟩ := unquotePlus_chars name hnamec x hx
        rcases hor with hsp | hmem
        · subst hsp
          exact ⟨by decide, by decide, by decide, by decide, by decide⟩
        · exact ⟨hnosep x (hname_mem x hmem), hname_ne x hmem, hpct, hplus,
            hascii⟩
      · intro x hx
        obtain ⟨hor, hplus, hpct, hascii⟩ := unquotePlus_chars value hvaluec x hx
        rcases hor with hsp | hmem
        · subst hsp
          exact ⟨by decide, by decide, by decide, by decide⟩
        · exact ⟨hnosep x (hvalue_mem x hmem), hpct, hplus, hascii⟩

/-- All entries of `parse_qs` of a percent-free ASCII query are good. -/
theorem parseQs_entries (q : List Char)
    (hq : ∀ c ∈ q, c ≠ '%' ∧ c.toNat < 0x80) :
    ∀ kv ∈ parseQs q, goodQueryEntry kv := by
  intro kv hkv
  have h := @foldl_dictAppend_inv
    (fun k => ∀ c ∈ k, c ≠ '&' ∧ c ≠ '=' ∧ c ≠ '%' ∧ c ≠ '+' ∧
      c.toNat < 0x80)
    (fun v => ∀ c ∈ v, c ≠ '&' ∧ c ≠ '%' ∧ c ≠ '+' ∧ c.toNat < 0x80)
    (parseQsl q) [] (by simp)
    (fun p hp => parseQsl_entry_conds q hq p hp) kv hkv
  exact ⟨h.1, h.2.1, h.2.2⟩

/-- Unfolding equation of `listCharLt` on two cons cells. -/
theorem listCharLt_cons (x y : Char) (xs ys : List Char) :
    listCharLt (x :: xs) (y :: ys) =
      if x.toNat < y.toNat then true
      else if y.toNat < x.toNat then false
      else listCharLt xs ys := rfl

/-- Strict lexicographic order on character lists is asymmetric. -/
theorem listCharLt_asymm :
    ∀ a b : List Char, listCharLt a b = true → listCharLt b a = false := by
  intro a
  induction a with
  | nil =>
    intro b h
    cases b with
    | nil => cases h
    | cons y ys => rfl
  | cons x xs ih =>
    intro b h
    cases b with
    | nil => cases h
    | cons y ys =>
      rw [listCharLt_cons] at h
      rw [listCharLt_cons]
      by_cases hxy : x.toNat < y.toNat
      · rw [if_neg (by omega), if_pos hxy]
      · rw [if_neg hxy] at h
        by_cases hyx : y.toNat < x.toNat
        · rw [if_pos hyx] at h; cases h
        · rw [if_neg hyx] at h
          rw [if_neg hxy, if_neg hyx]
          exact ih ys h

/-- Non-strict comparisons (negated `listCharLt`) compose transitively. -/
theorem listCharLt_false_trans :
    ∀ a b c : List Char, listCharLt b a = false → listCharLt c b = false →
      listCharLt c a = false := by
  intro a
  induction a with
  | nil =>
    intro b c _ _
    cases c with
    | nil => rfl
    | cons z zs => rfl
  | cons x xs ih =>
    intro b c h1 h2
    cases b with
    | nil => cases h1
    | cons y ys =>
      cases c with
      | nil => cases h2
      | cons z zs =>
        rw [listCharLt_cons] at h1 h2
        rw [listCharLt_cons]
        by_cases hyx : y.toNat < x.toNat
        · rw [if_pos hyx] at h1; cases h1
        · rw [if_neg hyx] at h1
          by_cases hzy : z.toNat < y.toNat
          · rw [if_pos hzy] at h2; cases h2
          · rw [if_neg hzy] at h2
            by_cases hzx : z.toNat < x.toNat
            · omega
            · rw [if_neg hzx]
              by_cases hxz : x.toNat < z.toNat
              · rw [if_pos hxz]
              · rw [if_neg hxz]
                have hxy : ¬ x.toNat < y.toNat := by omega
                have hyz : ¬ y.toNat < z.toNat := by omega
                rw [if_neg hxy] at h1
                rw [if_neg hyz] at h2
                exact ih ys zs h1 h2

/-- Insertion yields a permutation of consing. -/
theorem insertByKey_perm (x : List Char × List (List Char)) :
    ∀ l, List.Perm (insertByKey x l) (x :: l) := by
  intro l
  induction l with
  | nil => exact List.Perm.refl _
  | cons y ys ih =>
    unfold insertByKey
    by_cases h : listCharLt y.1 x.1
    · rw [if_pos h]
      exact (ih.cons y).trans (List.Perm.swap x y ys)
    · rw [if_neg h]

/-- Sorting yields a permutation of the input. -/
theorem sortByKey_perm : ∀ l, List.Perm (sortByKey l) l := by
  intro l
  induction l with
  | nil => exact List.Perm.refl _
  | cons x xs ih =>
    unfold sortByKey
    exact (insertByKey_perm x (sortByKey xs)).trans (ih.cons x)

/-- Insertion preserves sortedness (pairwise non-inversion of keys). -/
theorem insertByKey_pairwise (x : List Char × List (List Char)) :
    ∀ l, l.Pairwise (fun a b => listCharLt b.1 a.1 = false) →
      (insertByKey x l).Pairwise (fun a b => listCharLt b.1 a.1 = false) := by
  intro l
  induction l with
  | nil => intro _; exact List.pairwise_singleton _ x
  | cons y ys ih =>
    intro h
    have hhead := (List.pairwise_cons.mp h).1
    have htail := (List.pairwise_cons.mp h).2
    unfold insertByKey
    by_cases hlt : listCharLt y.1 x.1
    · rw [if_pos hlt]
      refine List.pairwise_cons.mpr ⟨?_, ih htail⟩
      intro b hb
      rcases List.mem_cons.mp ((insertByKey_perm x ys).mem_iff.mp hb) with
        hb | hb
      · rw [hb]
        exact listCharLt_asymm y.1 x.1 hlt
      · exact hhead b hb
    · rw [if_neg hlt]
      refine List.pairwise_cons.mpr ⟨?_, h⟩
      intro b hb
      rcases List.mem_cons.mp hb with hb | hb
      · rw [hb]
        exact Bool.eq_false_iff.mpr hlt
      · exact listCharLt_false_trans x.1 y.1 b.1 (Bool.eq_false_iff.mpr hlt)
          (hhead b hb)

/-- The output of `sortByKey` is sorted by key. -/
theorem sortByKey_pairwise :
    ∀ l, (sortByKey l).Pairwise (fun a b => listCharLt b.1 a.1 = false) := by
  intro l
  induction l with
  | nil => exact List.Pairwise.nil
  | cons x xs ih =>
    unfold sortByKey
    exact insertByKey_pairwise x (sortByKey xs) ih

/-- Inserting an element below the whole list just conses it. -/
theorem insertByKey_head (x : List Char × List (List Char)) (l : _)
    (h : ∀ y ∈ l, listCharLt y.1 x.1 = false) : insertByKey x l = x :: l := by
  cases l with
  | nil => rfl
  | cons y ys =>
    unfold insertByKey
    rw [h y (by simp)]
    simp

/-- Sorting a list already sorted by key is the identity. -/
theorem sortByKey_fixed :
    ∀ l, l.Pairwise (fun a b => listCharLt b.1 a.1 = false) →
      sortByKey l = l := by
  intro l
  induction l with
  | nil => intro _; rfl
  | cons x xs ih =>
    intro h
    have hp := List.pairwise_cons.mp h
    unfold sortByKey
    rw [ih hp.2, insertByKey_head x xs hp.1]

/-! ### `urlsplit` and `urlunsplit` on clean component lists -/

/-- Projection form of `pyUrlsplit`, by structure eta on the pair lets. -/
theorem pyUrlsplit_def (url : List Char) :
    pyUrlsplit url =
      { scheme := (detectScheme (urlClean url)).1
        netloc := (netlocStep (detectScheme (urlClean url)).2).1
        path := (sepSplit '?'
          (sepSplit '#' (netlocStep (detectScheme (urlClean url)).2).2).1).1
        query := (sepSplit '?'
          (sepSplit '#' (netlocStep (detectScheme (urlClean url)).2).2).1).2
        fragment :=
          (sepSplit '#' (netlocStep (detectScheme (urlClean url)).2).2).2 } :=
  rfl

/-- Projection form of `sepSplit`: the prefix and the tail of the rest. -/
theorem sepSplit_eq (sep : Char) (u : List Char) :
    sepSplit sep u =
      ((takeUntil (· = sep) u).1, (takeUntil (· = sep) u).2.tail) := by
  unfold sepSplit
  rcases htu : takeUntil (· = sep) u with ⟨b, r⟩
  cases r with
  | nil => rfl
  | cons x rest => rfl

/-- Both halves of `sepSplit` come from the input. -/
theorem sepSplit_mem (sep : Char) (u : List Char) :
    (∀ c ∈ (sepSplit sep u).1, c ∈ u) ∧ ∀ c ∈ (sepSplit sep u).2, c ∈ u := by
  rw [sepSplit_eq]
  constructor
  · intro c hc
    rw [← takeUntil_append_eq (· = sep) u]
    exact List.mem_append.mpr (Or.inl hc)
  · intro c hc
    rw [← takeUntil_append_eq (· = sep) u]
    exact List.mem_append.mpr (Or.inr (List.mem_of_mem_tail hc))

/-- The left half of `sepSplit` is separator-free. -/
theorem sepSplit_fst_free (sep : Char) (u : List Char) :
    ∀ c ∈ (sepSplit sep u).1, c ≠ sep := by
  rw [sepSplit_eq]
  intro c hc
  have := takeUntil_fst_not (· = sep) u c hc
  simpa using this

/-- `sepSplit` on a separator-free list keeps it whole. -/
theorem sepSplit_none (sep : Char) (u : List Char) (h : ∀ c ∈ u, c ≠ sep) :
    sepSplit sep u = (u, []) := by
  rw [sepSplit_eq, takeUntil_eq_none (· = sep) u (fun c hc => by
    simpa using h c hc)]
  rfl

/-- `sepSplit` cuts at the first separator. -/
theorem sepSplit_found (sep : Char) (A B : List Char)
    (h : ∀ c ∈ A, c ≠ sep) : sepSplit sep (A ++ sep :: B) = (A, B) := by
  rw [sepSplit_eq, takeUntil_append_found (· = sep) A B sep
    (fun c hc => by simpa using h c hc) (by simp)]
  rfl

/-- Both halves of `netlocStep` come from the input. -/
theorem netlocStep_mem (u : List Char) :
    (∀ c ∈ (netlocStep u).1, c ∈ u) ∧ ∀ c ∈ (netlocStep u).2, c ∈ u := by
  unfold netlocStep
  split
  · next rest =>
    unfold splitNetloc
    constructor
    · intro c hc
      have : c ∈ rest := by
        rw [← takeUntil_append_eq (fun c => c = '/' || c = '?' || c = '#') rest]
        exact List.mem_append.mpr (Or.inl hc)
      simp [this]
    · intro c hc
      have : c ∈ rest := by
        rw [← takeUntil_append_eq (fun c => c = '/' || c = '?' || c = '#') rest]
        exact List.mem_append.mpr (Or.inr hc)
      simp [this]
  · next => exact ⟨by simp, fun c hc => hc⟩

/-- The netloc contains no `/`, `?` or `#`. -/
theorem netlocStep_fst_stop (u : List Char) :
    ∀ c ∈ (netlocStep u).1, c ≠ '/' ∧ c ≠ '?' ∧ c ≠ '#' := by
  unfold netlocStep
  split
  · next rest =>
    intro c hc
    have := takeUntil_fst_not (fun c => c = '/' || c = '?' || c = '#') rest c hc
    simp only [Bool.or_eq_false_iff, decide_eq_false_iff_not] at this
    exact ⟨this.1.1, this.1.2, this.2⟩
  · next => intro c hc; simp at hc

/-- After a nonempty netloc the rest is empty or led by a stop character. -/
theorem netlocStep_snd_shape (u : List Char) :
    (netlocStep u).1 ≠ [] →
      (netlocStep u).2 = [] ∨
        ∃ c, (netlocStep u).2.head? = some c ∧ (c = '/' ∨ c = '?' ∨ c = '#') := by
  unfold netlocStep
  split
  · next rest =>
    intro hne
    cases hr : (splitNetloc rest).2 with
    | nil => exact Or.inl rfl
    | cons c t =>
      right
      refine ⟨c, by simp [hr], ?_⟩
      have h' := takeUntil_snd_head (fun c => c = '/' || c = '?' || c = '#')
        rest c t hr
      simp only [Bool.or_eq_true, decide_eq_true_eq] at h'
      tauto
  · next =>
    intro hne
    exact absurd rfl hne

/-- Grouping the rebuilt query parses back to singleton value lists. -/
theorem parseQs_buildQuery (A : List (List Char × List (List Char)))
    (hgood : ∀ kv ∈ A, goodQueryEntry kv)
    (hnodup : (A.map (·.1)).Nodup) :
    parseQs (buildQuery A) = A.map (fun kv => (kv.1, [kv.2.headI])) := by
  unfold parseQs
  rw [parseQsl_buildQuery A hgood]
  rw [foldl_dictAppend_nodup _ []
    (by rw [List.map_map]; exact hnodup)
    (by intro p _ kv hkv; simp at hkv)]
  rw [List.nil_append, List.map_map]
  rfl

/-- The query rewrite of `normalize_url` fixes every query it built
itself from good, sorted, duplicate-free, tracking-free entries. -/
theorem queryTransform_fix (A : List (List Char × List (List Char)))
    (hgood : ∀ kv ∈ A, goodQueryEntry kv)
    (hnodup : (A.map (·.1)).Nodup)
    (hsorted : A.Pairwise (fun a b => listCharLt b.1 a.1 = false))
    (hnotrack : ∀ kv ∈ A, asciiLower kv.1 ∉ TRACKING_PARAMS) :
    queryTransform (buildQuery A) = buildQuery A := by
  unfold queryTransform
  rw [parseQs_buildQuery A hgood hnodup]
  have hfilter :
      (A.map (fun kv => (kv.1, [kv.2.headI]))).filter
          (fun kv => ¬ asciiLower kv.1 ∈ TRACKING_PARAMS) =
        A.map (fun kv => (kv.1, [kv.2.headI])) := by
    rw [List.filter_eq_self]
    intro kv hkv
    obtain ⟨kv0, hkv0, hmap⟩ := List.mem_map.mp hkv
    rw [← hmap]
    exact decide_eq_true (hnotrack kv0 hkv0)
  rw [hfilter]
  have hsorted' :
      (A.map (fun kv => (kv.1, [kv.2.headI]))).Pairwise
        (fun a b => listCharLt b.1 a.1 = false) := by
    exact List.Pairwise.map _ (fun a b hab => hab) hsorted
  rw [sortByKey_fixed _ hsorted']
  rw [buildQuery_eq_join _ (by
    intro kv hkv
    obtain ⟨kv0, _, hmap⟩ := List.mem_map.mp hkv
    rw [← hmap]
    simp)]
  rw [buildQuery_eq_join A (fun kv hkv => (hgood kv hkv).1)]
  rw [List.map_map]
  rfl

/-- The `//` case of the netloc step. -/
theorem netlocStep_slashes (rest : List Char) :
    netlocStep ('/' :: '/' :: rest) = splitNetloc rest := rfl

/-- Characters of the cleaned URL come from the URL. -/
theorem urlClean_mem (l : List Char) : ∀ c ∈ urlClean l, c ∈ l := by
  intro c hc
  unfold urlClean at hc
  exact (List.dropWhile_sublist isC0OrSpace).subset (List.mem_of_mem_filter hc)

/-- Cleaning is the identity on unsafe-byte-free text whose first
character is no control or space. -/
theorem urlClean_id (l : List Char)
    (h1 : ∀ c ∈ l, isUnsafeUrlByte c = false)
    (h2 : l = [] ∨ ∃ c0 t, l = c0 :: t ∧ isC0OrSpace c0 = false) :
    urlClean l = l := by
  unfold urlClean
  have hdrop : l.dropWhile isC0OrSpace = l := by
    rcases h2 with h2 | ⟨c0, t, hl, hc0⟩
    · rw [h2]; rfl
    · rw [hl, List.dropWhile_cons, if_neg (by simp [hc0])]
  rw [hdrop, List.filter_eq_self]
  intro c hc
  simp [h1 c hc]

/-- A scheme character is not a separator. -/
theorem schemeChar_sep {c : Char} (h : schemeChar c = true) :
    c ≠ ':' ∧ c ≠ '/' ∧ c ≠ '?' ∧ c ≠ '#' ∧ c ≠ ' ' := by
  simp only [schemeChar, Bool.or_eq_true, decide_eq_true_eq] at h
  have hn : (65 ≤ c.toNat ∧ c.toNat ≤ 90) ∨ (97 ≤ c.toNat ∧ c.toNat ≤ 122) ∨
      (48 ≤ c.toNat ∧ c.toNat ≤ 57) ∨ c.toNat = 43 ∨ c.toNat = 45 ∨
      c.toNat = 46 := by
    rcases h with (((ha | hd) | hp) | hm) | hdot
    · rcases (char_isAlpha_iff c).mp ha with h' | h'
      · exact Or.inl h'
      · exact Or.inr (Or.inl h')
    · exact Or.inr (Or.inr (Or.inl ((char_isDigit_iff c).mp hd)))
    · subst hp; exact Or.inr (Or.inr (Or.inr (Or.inl rfl)))
    · subst hm; exact Or.inr (Or.inr (Or.inr (Or.inr (Or.inl rfl))))
    · subst hdot; exact Or.inr (Or.inr (Or.inr (Or.inr (Or.inr rfl))))
  have h1 : Char.toNat ':' = 58 := rfl
  have h2 : Char.toNat '/' = 47 := rfl
  have h3 : Char.toNat '?' = 63 := rfl
  have h4 : Char.toNat '#' = 35 := rfl
  have h5 : Char.toNat ' ' = 32 := rfl
  simp only [ne_eq, char_eq_iff_toNat, h1, h2, h3, h4, h5]
  refine ⟨?_, ?_, ?_, ?_, ?_⟩ <;> omega

/-- The scheme half of `detectScheme` is empty or a lowercased run of
scheme characters led by a letter. -/
theorem detectScheme_shape (u : List Char) :
    (detectScheme u).1 = [] ∨
      ∃ c0 t, (detectScheme u).1 = c0 :: t ∧ c0.isAlpha = true ∧
        (∀ c ∈ (detectScheme u).1, schemeChar c = true) := by
  unfold detectScheme
  rcases htu : takeUntil (· = ':') u with ⟨pre, r⟩
  cases r with
  | nil => exact Or.inl rfl
  | cons x rest =>
    cases pre with
    | nil => exact Or.inl rfl
    | cons d0 t0 =>
      dsimp only
      by_cases hcond : d0.isAlpha = true ∧ (d0 :: t0).all schemeChar = true
      · rw [if_pos (by exact_mod_cast hcond)]
        right
        refine ⟨asciiLowerChar d0, asciiLower t0, rfl,
          asciiLowerChar_isAlpha hcond.1, ?_⟩
        intro c hc
        obtain ⟨d, hd, hdc⟩ := List.mem_map.mp hc
        rw [← hdc]
        exact asciiLowerChar_schemeChar (List.all_eq_true.mp hcond.2 d hd)
      · rw [if_neg (by exact_mod_cast hcond)]
        exact Or.inl rfl

/-- The remainder of `detectScheme` comes from the input. -/
theorem detectScheme_snd_mem (u : List Char) :
    ∀ c ∈ (detectScheme u).2, c ∈ u := by
  unfold detectScheme
  rcases htu : takeUntil (· = ':') u with ⟨pre, r⟩
  have happ := takeUntil_append_eq (· = ':') u
  rw [htu] at happ
  cases r with
  | nil => exact fun c hc => hc
  | cons x rest =>
    cases pre with
    | nil => exact fun c hc => hc
    | cons d0 t0 =>
      dsimp only
      by_cases hcond : d0.isAlpha = true ∧ (d0 :: t0).all schemeChar = true
      · rw [if_pos (by exact_mod_cast hcond)]
        intro c hc
        rw [← happ]
        exact List.mem_append.mpr (Or.inr (by simp [hc]))
      · rw [if_neg (by exact_mod_cast hcond)]
        exact fun c hc => hc

/-- Scheme detection declines an input led by a non-letter. -/
theorem detectScheme_nonalpha (u : List Char)
    (h : ∀ c0 t, u = c0 :: t → c0.isAlpha = false) :
    detectScheme u = ([], u) := by
  unfold detectScheme
  rcases htu : takeUntil (· = ':') u with ⟨pre, r⟩
  have happ := takeUntil_append_eq (· = ':') u
  rw [htu] at happ
  cases r with
  | nil => rfl
  | cons x rest =>
    cases pre with
    | nil => rfl
    | cons d0 t0 =>
      dsimp only
      rw [if_neg]
      rintro ⟨ha, -⟩
      have hu : u = d0 :: (t0 ++ x :: rest) := by rw [← happ]; rfl
      have hfalse := h d0 _ hu
      have ha' : d0.isAlpha = true := by exact_mod_cast ha
      rw [hfalse] at ha'
      cases ha'

/-- Scheme detection accepts a well-formed scheme before a colon. -/
theorem detectScheme_scheme (sch rest : List Char) (c0 : Char) (t : List Char)
    (hsch : sch = c0 :: t) (halpha : c0.isAlpha = true)
    (hall : ∀ c ∈ sch, schemeChar c = true)
    (hlow : asciiLower sch = sch) :
    detectScheme (sch ++ ':' :: rest) = (sch, rest) := by
  unfold detectScheme
  rw [takeUntil_append_found (· = ':') sch rest ':'
    (fun c hc => by simp [(schemeChar_sep (hall c hc)).1]) (by simp)]
  rw [hsch]
  dsimp only
  rw [if_pos]
  · rw [← hsch, hlow]
  · constructor
    · exact_mod_cast halpha
    · exact_mod_cast List.all_eq_true.mpr
        (fun c hc => hall c (by rw [hsch]; exact hc))

/-- Scheme characters are printable. -/
theorem schemeChar_ge {c : Char} (h : schemeChar c = true) :
    0x20 ≤ c.toNat := by
  simp only [schemeChar, Bool.or_eq_true, decide_eq_true_eq] at h
  rcases h with (((ha | hd) | hp) | hm) | hdot
  · rcases (char_isAlpha_iff c).mp ha with h' | h' <;> omega
  · have := (char_isDigit_iff c).mp hd; omega
  · subst hp; decide
  · subst hm; decide
  · subst hdot; decide

/-- Printable characters are not removed by the urlsplit cleanup. -/
theorem urlByte_ok_of_ge {c : Char} (h : 0x20 ≤ c.toNat) :
    isUnsafeUrlByte c = false := by
  have h9 : Char.toNat '\t' = 9 := rfl
  have h13 : Char.toNat '\r' = 13 := rfl
  have h10 : Char.toNat '\n' = 10 := rfl
  simp only [isUnsafeUrlByte, Bool.or_eq_false_iff, decide_eq_false_iff_not,
    char_eq_iff_toNat, h9, h13, h10]
  omega

/-- Closed form of `urlunsplit` on a nonempty netloc, a root-or-absolute
path and no fragment. -/
theorem pyUrlunsplit_eq (sch nl pth q : List Char) (hnl : nl ≠ [])
    (hpth : pth = [] ∨ pth.head? = some '/') :
    pyUrlunsplit sch nl pth q [] =
      (if sch ≠ [] then sch ++ [':'] else []) ++
        '/' :: '/' :: (nl ++ pth) ++ (if q ≠ [] then '?' :: q else []) := by
  have hpthAdj :
      (if pth ≠ [] ∧ pth.take 1 ≠ ['/'] then '/' :: pth else pth) = pth := by
    rcases hpth with h | h
    · rw [if_neg (by simp [h])]
    · obtain ⟨t, ht⟩ : ∃ t, pth = '/' :: t := by
        cases pth with
        | nil => simp at h
        | cons a s =>
          have ha : a = '/' := by simpa using h
          exact ⟨s, by rw [ha]⟩
      rw [if_neg (by simp [ht])]
  simp only [pyUrlunsplit]
  rw [if_pos (Or.inl hnl), hpthAdj]
  rw [if_neg (by simp)]
  by_cases hs : sch = [] <;> by_cases hq0 : q = [] <;>
    simp [hs, hq0, List.append_assoc]

/-- `urlsplit` recovers the components `urlunsplit` was given, for clean
components with a nonempty netloc, a root-or-absolute path and no
fragment. -/
theorem pyUrlsplit_unsplit (sch nl pth q : List Char)
    (hnl : nl ≠ [])
    (hnlstop : ∀ c ∈ nl, c ≠ '/' ∧ c ≠ '?' ∧ c ≠ '#')
    (hsch : sch = [] ∨ ∃ c0 t, sch = c0 :: t ∧ c0.isAlpha = true ∧
      (∀ c ∈ sch, schemeChar c = true) ∧ asciiLower sch = sch)
    (hpth : pth = [] ∨ pth.head? = some '/')
    (hpthfree : ∀ c ∈ pth, c ≠ '?' ∧ c ≠ '#')
    (hqfree : ∀ c ∈ q, c ≠ '#')
    (hge : ∀ c ∈ nl ++ pth ++ q, 0x20 ≤ c.toNat) :
    pyUrlsplit (pyUrlunsplit sch nl pth q []) =
      { scheme := sch, netloc := nl, path := pth, query := q,
        fragment := [] } := by
  rw [pyUrlunsplit_eq sch nl pth q hnl hpth]
  rw [List.append_assoc, List.cons_append, List.cons_append]
  have hgnl : ∀ c ∈ nl, 0x20 ≤ c.toNat :=
    fun c hc => hge c (by simp [hc])
  have hgpth : ∀ c ∈ pth, 0x20 ≤ c.toNat :=
    fun c hc => hge c (by simp [hc])
  have hgq : ∀ c ∈ q, 0x20 ≤ c.toNat :=
    fun c hc => hge c (by simp [hc])
  have hgq' : ∀ c ∈ (if q ≠ [] then '?' :: q else []), 0x20 ≤ c.toNat := by
    intro c hc
    split at hc
    · rcases List.mem_cons.mp hc with hc | hc
      · subst hc; decide
      · exact hgq c hc
    · simp at hc
  have hallU : ∀ c ∈ (if sch ≠ [] then sch ++ [':'] else []) ++
      '/' :: '/' :: ((nl ++ pth) ++ (if q ≠ [] then '?' :: q else [])),
      0x20 ≤ c.toNat := by
    intro c hc
    rcases List.mem_append.mp hc with hc | hc
    · split at hc
      · rcases List.mem_append.mp hc with hc | hc
        · rcases hsch with hs | ⟨c0, t, _, _, hall, _⟩
          · rw [hs] at hc; simp at hc
          · exact schemeChar_ge (hall c hc)
        · rw [List.mem_singleton.mp hc]; decide
      · simp at hc
    · rcases List.mem_cons.mp hc with hc | hc
      · subst hc; decide
      · rcases List.mem_cons.mp hc with hc | hc
        · subst hc; decide
        · rcases List.mem_append.mp hc with hc | hc
          · rcases List.mem_append.mp hc with hc | hc
            · exact hgnl c hc
            · exact hgpth c hc
          · exact hgq' c hc
  have hclean : urlClean ((if sch ≠ [] then sch ++ [':'] else []) ++
      '/' :: '/' :: ((nl ++ pth) ++ (if q ≠ [] then '?' :: q else []))) =
      (if sch ≠ [] then sch ++ [':'] else []) ++
        '/' :: '/' :: ((nl ++ pth) ++ (if q ≠ [] then '?' :: q else [])) := by
    apply urlClean_id
    · exact fun c hc => urlByte_ok_of_ge (hallU c hc)
    · right
      rcases hsch with hs | ⟨c0, t, hs, halpha, _, _⟩
      · refine ⟨'/', '/' :: ((nl ++ pth) ++ (if q ≠ [] then '?' :: q else [])),
          ?_, by decide⟩
        rw [hs, if_neg (by simp), List.nil_append]
      · refine ⟨c0, (t ++ [':']) ++
          '/' :: '/' :: ((nl ++ pth) ++ (if q ≠ [] then '?' :: q else [])),
          ?_, ?_⟩
        · rw [hs, if_pos (by simp)]
          simp [List.append_assoc]
        · have := (char_isAlpha_iff c0).mp halpha
          simp only [isC0OrSpace, decide_eq_false_iff_not]
          omega
  have hds : detectScheme ((if sch ≠ [] then sch ++ [':'] else []) ++
      '/' :: '/' :: ((nl ++ pth) ++ (if q ≠ [] then '?' :: q else []))) =
      (sch, '/' :: '/' ::
        ((nl ++ pth) ++ (if q ≠ [] then '?' :: q else []))) := by
    rcases hsch with hs | ⟨c0, t, hs, halpha, hall, hlow⟩
    · rw [hs, if_neg (by simp), List.nil_append]
      rw [detectScheme_nonalpha _ (by
        intro d0 t0 he
        injection he with h1 h2
        rw [← h1]
        decide)]
    · rw [if_pos (by rw [hs]; simp)]
      rw [List.append_assoc, List.singleton_append]
      exact detectScheme_scheme sch _ c0 t hs halpha hall hlow
  have hnlstop' : ∀ c ∈ nl, (c = '/' || c = '?' || c = '#') = false := by
    intro c hc
    simp [(hnlstop c hc).1, (hnlstop c hc).2.1, (hnlstop c hc).2.2]
  have hnet : netlocStep ('/' :: '/' ::
      ((nl ++ pth) ++ (if q ≠ [] then '?' :: q else []))) =
      (nl, pth ++ (if q ≠ [] then '?' :: q else [])) := by
    rw [netlocStep_slashes]
    unfold splitNetloc
    rcases hpth with hp | hp
    · subst hp
      by_cases hq0 : q = []
      · subst hq0
        rw [if_neg (by simp)]
        simp only [List.append_nil, List.nil_append]
        rw [takeUntil_eq_none _ nl hnlstop']
      · rw [if_pos hq0]
        simp only [List.append_nil, List.nil_append]
        rw [takeUntil_append_found _ nl q '?' hnlstop' (by decide)]
    · obtain ⟨pt, hpt⟩ : ∃ pt, pth = '/' :: pt := by
        cases pth with
        | nil => simp at hp
        | cons a s =>
          have ha : a = '/' := by simpa using hp
          exact ⟨s, by rw [ha]⟩
      subst hpt
      have hre : (nl ++ '/' :: pt) ++ (if q ≠ [] then '?' :: q else []) =
          nl ++ '/' :: (pt ++ (if q ≠ [] then '?' :: q else [])) := by
        simp
      rw [hre, takeUntil_append_found _ nl _ '/' hnlstop' (by decide)]
      simp
  have hfree2 : ∀ c ∈ pth ++ (if q ≠ [] then '?' :: q else []),
      c ≠ '#' := by
    intro c hc
    rcases List.mem_append.mp hc with hc | hc
    · exact (hpthfree c hc).2
    · split at hc
      · rcases List.mem_cons.mp hc with hc | hc
        · subst hc; decide
        · exact hqfree c hc
      · simp at hc
  have hfrag : sepSplit '#' (pth ++ (if q ≠ [] then '?' :: q else [])) =
      (pth ++ (if q ≠ [] then '?' :: q else []), []) :=
    sepSplit_none '#' _ hfree2
  have hquery : sepSplit '?' (pth ++ (if q ≠ [] then '?' :: q else [])) =
      (pth, q) := by
    by_cases hq0 : q = []
    · subst hq0
      rw [if_neg (by simp), List.append_nil]
      exact sepSplit_none '?' pth (fun c hc => (hpthfree c hc).1)
    · rw [if_pos hq0]
      exact sepSplit_found '?' pth q (fun c hc => (hpthfree c hc).1)
  rw [pyUrlsplit_def, hclean, hds]
  dsimp only
  rw [hnet]
  dsimp only
  rw [hfrag]
  dsimp only
  rw [hquery]

/-- The head of `sepSplit` keeps a non-separator head character. -/
theorem sepSplit_fst_cons (sep c : Char) (t : List Char) (h : c ≠ sep) :
    (sepSplit sep (c :: t)).1 = c :: (takeUntil (· = sep) t).1 := by
  rw [sepSplit_eq]
  dsimp only
  rw [takeUntil_cons, if_neg (by simp [h])]

/-- The head of `sepSplit` on a leading separator is empty. -/
theorem sepSplit_fst_sep (sep : Char) (t : List Char) :
    (sepSplit sep (sep :: t)).1 = [] := by
  rw [sepSplit_eq]
  dsimp only
  rw [takeUntil_cons, if_pos (by simp)]

/-- Unpacked form of the `goodUrlChar` predicate. -/
theorem goodUrlChar_spec {c : Char} (h : goodUrlChar c = true) :
    0x20 ≤ c.toNat ∧ c.toNat ≤ 0x7E ∧ c ≠ '%' ∧ c ≠ ';' ∧ c ≠ '[' ∧
      c ≠ ']' := by
  simpa [goodUrlChar] using h

/-- Key and value characters of `parse_qsl` pairs are spaces or source
characters of the query. -/
theorem parseQsl_src (qs : List Char)
    (hq : ∀ c ∈ qs, c ≠ '%' ∧ c.toNat < 0x80) :
    ∀ p ∈ parseQsl qs,
      (∀ c ∈ p.1, c = ' ' ∨ c ∈ qs) ∧ (∀ c ∈ p.2, c = ' ' ∨ c ∈ qs) := by
  intro p hp
  unfold parseQsl at hp
  obtain ⟨chunk, hchunk, hfn⟩ := List.mem_filterMap.mp hp
  have hmemq : ∀ c ∈ chunk, c ∈ qs := splitSep_chunk_mem '&' qs chunk hchunk
  have hchunkc : ∀ c ∈ chunk, c ≠ '%' ∧ c.toNat < 0x80 :=
    fun c hc => hq c (hmemq c hc)
  cases chunk with
  | nil => simp [parseQslChunk] at hfn
  | cons c0 rest =>
    unfold parseQslChunk at hfn
    dsimp only at hfn
    rcases htu : takeUntil (· = '=') (c0 :: rest) with ⟨name, rest2⟩
    rw [htu] at hfn
    have happ := takeUntil_append_eq (· = '=') (c0 :: rest)
    rw [htu] at happ
    have hname_mem : ∀ x ∈ name, x ∈ c0 :: rest := by
      intro x hx
      rw [← happ]
      exact List.mem_append.mpr (Or.inl hx)
    have hnamec : ∀ x ∈ name, x ≠ '%' ∧ x.toNat < 0x80 :=
      fun x hx => hchunkc x (hname_mem x hx)
    cases rest2 with
    | nil =>
      dsimp only at hfn
      injection hfn with hfn'
      rw [← hfn']
      constructor
      · intro x hx
        obtain ⟨hor, _, _, _⟩ := unquotePlus_chars name hnamec x hx
        rcases hor with hsp | hmem
        · exact Or.inl hsp
        · exact Or.inr (hmemq x (hname_mem x hmem))
      · intro x hx
        simp at hx
    | cons e value =>
      dsimp only at hfn
      injection hfn with hfn'
      rw [← hfn']
      have hvalue_mem : ∀ x ∈ value, x ∈ c0 :: rest := by
        intro x hx
        rw [← happ]
        exact List.mem_append.mpr (Or.inr (by simp [hx]))
      have hvaluec : ∀ x ∈ value, x ≠ '%' ∧ x.toNat < 0x80 :=
        fun x hx => hchunkc x (hvalue_mem x hx)
      constructor
      · intro x hx
        obtain ⟨hor, _, _, _⟩ := unquotePlus_chars name hnamec x hx
        rcases hor with hsp | hmem
        · exact Or.inl hsp
        · exact Or.inr (hmemq x (hname_mem x hmem))
      · intro x hx
        obtain ⟨hor, _, _, _⟩ := unquotePlus_chars value hvaluec x hx
        rcases hor with hsp | hmem
        · exact Or.inl hsp
        · exact Or.inr (hmemq x (hvalue_mem x hmem))

/-- Key and value characters of `parse_qs` entries are spaces or source
characters of the query. -/
theorem parseQs_src (qs : List Char)
    (hq : ∀ c ∈ qs, c ≠ '%' ∧ c.toNat < 0x80) :
    ∀ kv ∈ parseQs qs, (∀ c ∈ kv.1, c = ' ' ∨ c ∈ qs) ∧
      ∀ v ∈ kv.2, ∀ c ∈ v, c = ' ' ∨ c ∈ qs := by
  intro kv hkv
  have h := @foldl_dictAppend_inv
    (fun k => ∀ c ∈ k, c = ' ' ∨ c ∈ qs)
    (fun v => ∀ c ∈ v, c = ' ' ∨ c ∈ qs)
    (parseQsl qs) [] (by simp) (fun p hp => parseQsl_src qs hq p hp) kv hkv
  exact ⟨h.2.1, h.2.2⟩

/-- Characters of the rebuilt query are separators, spaces or source
characters of the original query. -/
theorem queryTransform_chars (qs : List Char)
    (hq : ∀ c ∈ qs, c ≠ '%' ∧ c.toNat < 0x80) :
    ∀ c ∈ queryTransform qs, c = '&' ∨ c = '=' ∨ c = ' ' ∨ c ∈ qs := by
  intro c hc
  unfold queryTransform buildQuery at hc
  rcases mem_joinSep '&' _ c hc with hc | ⟨piece, hpiece, hcp⟩
  · exact Or.inl hc
  · obtain ⟨kv, hkv, hkvp⟩ := List.mem_filterMap.mp hpiece
    have hkv' : kv ∈ parseQs qs :=
      List.mem_of_mem_filter ((sortByKey_perm _).mem_iff.mp hkv)
    have hsrc := parseQs_src qs hq kv hkv'
    rcases hm : kv.2 with _ | ⟨v, vt⟩
    · rw [hm] at hkvp
      simp at hkvp
    · rw [hm] at hkvp
      dsimp only at hkvp
      injection hkvp with hkvp'
      rw [← hkvp'] at hcp
      rcases List.mem_append.mp hcp with hcp | hcp
      · rcases hsrc.1 c hcp with h' | h'
        · exact Or.inr (Or.inr (Or.inl h'))
        · exact Or.inr (Or.inr (Or.inr h'))
      · rcases List.mem_cons.mp hcp with hcp | hcp
        · exact Or.inr (Or.inl hcp)
        · rcases hsrc.2 v (by rw [hm]; simp) c hcp with h' | h'
          · exact Or.inr (Or.inr (Or.inl h'))
          · exact Or.inr (Or.inr (Or.inr h'))

/-- Unfolded form of `normalizeUrlList`. -/
theorem normalizeUrlList_eq (url : List Char) :
    normalizeUrlList url =
      pyUrlunparse (asciiLower (pyUrlparse url).scheme)
        (asciiLower (pyUrlparse url).netloc)
        (pathTransform (pyUrlparse url).path) []
        (queryTransform (pyUrlparse url).query) [] := rfl

set_option maxHeartbeats 1000000 in
/-- The character data of a normalized URL. -/
theorem normalize_url_data (url : String) :
    (normalize_url url).data = normalizeUrlList url.data := by
  unfold normalize_url
  dsimp only

/-- C6 (amended): on printable-ASCII URLs without percent-escapes, `;` or
brackets and with an authority component, `normalize_url` is idempotent,
and no key of the normalized URL's parsed query lowercases into
`TRACKING_PARAMS`. -/
theorem C6_normalize_idempotent_amended (u : String) (h : SafeUrl u) :
    normalize_url (normalize_url u) = normalize_url u ∧
      ∀ k ∈ queryKeysOf (normalize_url u), asciiLower k ∉ TRACKING_PARAMS := by
  obtain ⟨hgood, hnlne⟩ := h
  have hgoodclean : ∀ c ∈ urlClean u.data, goodUrlChar c = true :=
    fun c hc => hgood c (urlClean_mem u.data c hc)
  have hschemeproj : (pyUrlsplit u.data).scheme =
      (detectScheme (urlClean u.data)).1 := by rw [pyUrlsplit_def]
  have hnetlocproj : (pyUrlsplit u.data).netloc =
      (netlocStep (detectScheme (urlClean u.data)).2).1 := by
    rw [pyUrlsplit_def]
  have hpathproj : (pyUrlsplit u.data).path =
      (sepSplit '?' (sepSplit '#'
        (netlocStep (detectScheme (urlClean u.data)).2).2).1).1 := by
    rw [pyUrlsplit_def]
  have hqueryproj : (pyUrlsplit u.data).query =
      (sepSplit '?' (sepSplit '#'
        (netlocStep (detectScheme (urlClean u.data)).2).2).1).2 := by
    rw [pyUrlsplit_def]
  have hD2mem : ∀ c ∈ (detectScheme (urlClean u.data)).2,
      c ∈ urlClean u.data := detectScheme_snd_mem _
  have hN2mem : ∀ c ∈ (netlocStep (detectScheme (urlClean u.data)).2).2,
      c ∈ urlClean u.data :=
    fun c hc => hD2mem c ((netlocStep_mem _).2 c hc)
  have hF1mem : ∀ c ∈ (sepSplit '#'
      (netlocStep (detectScheme (urlClean u.data)).2).2).1,
      c ∈ urlClean u.data :=
    fun c hc => hN2mem c ((sepSplit_mem '#' _).1 c hc)
  have hpathmem : ∀ c ∈ (pyUrlsplit u.data).path, c ∈ urlClean u.data := by
    rw [hpathproj]
    exact fun c hc => hF1mem c ((sepSplit_mem '?' _).1 c hc)
  have hquerymem : ∀ c ∈ (pyUrlsplit u.data).query, c ∈ urlClean u.data := by
    rw [hqueryproj]
    exact fun c hc => hF1mem c ((sepSplit_mem '?' _).2 c hc)
  have hnetmem : ∀ c ∈ (pyUrlsplit u.data).netloc, c ∈ urlClean u.data := by
    rw [hnetlocproj]
    exact fun c hc => hD2mem c ((netlocStep_mem _).1 c hc)
  have hpathgood : ∀ c ∈ (pyUrlsplit u.data).path, goodUrlChar c = true :=
    fun c hc => hgoodclean c (hpathmem c hc)
  have hquerygood : ∀ c ∈ (pyUrlsplit u.data).query, goodUrlChar c = true :=
    fun c hc => hgoodclean c (hquerymem c hc)
  have hnetgood : ∀ c ∈ (pyUrlsplit u.data).netloc, goodUrlChar c = true :=
    fun c hc => hgoodclean c (hnetmem c hc)
  have hqsfree : ∀ c ∈ (pyUrlsplit u.data).query,
      c ≠ '%' ∧ c.toNat < 0x80 := by
    intro c hc
    obtain ⟨h1, h2, h3, -⟩ := goodUrlChar_spec (hquerygood c hc)
    exact ⟨h3, by omega⟩
  have hpathq : ∀ c ∈ (pyUrlsplit u.data).path, c ≠ '?' := by
    rw [hpathproj]
    exact sepSplit_fst_free '?' _
  have hpathh : ∀ c ∈ (pyUrlsplit u.data).path, c ≠ '#' := by
    rw [hpathproj]
    intro c hc
    exact sepSplit_fst_free '#' _ c ((sepSplit_mem '?' _).1 c hc)
  have hqh : ∀ c ∈ (pyUrlsplit u.data).query, c ≠ '#' := by
    rw [hqueryproj]
    intro c hc
    exact sepSplit_fst_free '#' _ c ((sepSplit_mem '?' _).2 c hc)
  have hnetstop : ∀ c ∈ (pyUrlsplit u.data).netloc,
      c ≠ '/' ∧ c ≠ '?' ∧ c ≠ '#' := by
    rw [hnetlocproj]
    exact netlocStep_fst_stop _
  have hpshape : (pyUrlsplit u.data).path = [] ∨
      (pyUrlsplit u.data).path.head? = some '/' := by
    rw [hpathproj]
    have hnlne' : (netlocStep (detectScheme (urlClean u.data)).2).1 ≠ [] := by
      rw [← hnetlocproj]
      exact hnlne
    rcases netlocStep_snd_shape _ hnlne' with h2 | ⟨c, hhead, hstop⟩
    · rw [h2]
      left
      rfl
    · obtain ⟨t, ht⟩ :
          ∃ t, (netlocStep (detectScheme (urlClean u.data)).2).2 = c :: t := by
        cases hcase : (netlocStep (detectScheme (urlClean u.data)).2).2 with
        | nil => rw [hcase] at hhead; simp at hhead
        | cons a s =>
          rw [hcase] at hhead
          simp at hhead
          exact ⟨s, by rw [hhead]⟩
      rw [ht]
      rcases hstop with hc | hc | hc
      · subst hc
        right
        rw [sepSplit_fst_cons '#' '/' t (by decide),
          sepSplit_fst_cons '?' '/' _ (by decide)]
        rfl
      · subst hc
        rw [sepSplit_fst_cons '#' '?' t (by decide), sepSplit_fst_sep '?' _]
        left
        rfl
      · subst hc
        rw [sepSplit_fst_sep '#' t]
        left
        rfl
  have hshape0 := detectScheme_shape (urlClean u.data)
  rw [← hschemeproj] at hshape0
  have hschshape : asciiLower (pyUrlsplit u.data).scheme = [] ∨
      ∃ c0 t, asciiLower (pyUrlsplit u.data).scheme = c0 :: t ∧
        c0.isAlpha = true ∧
        (∀ c ∈ asciiLower (pyUrlsplit u.data).scheme, schemeChar c = true) ∧
        asciiLower (asciiLower (pyUrlsplit u.data).scheme) =
          asciiLower (pyUrlsplit u.data).scheme := by
    rcases hshape0 with hs | ⟨c0, t, hs, halpha, hall⟩
    · left
      rw [hs]
      rfl
    · right
      refine ⟨asciiLowerChar c0, asciiLower t, by rw [hs]; rfl,
        asciiLowerChar_isAlpha halpha, ?_, asciiLower_idem _⟩
      intro c hc
      obtain ⟨d, hd, rfl⟩ := List.mem_map.mp hc
      exact asciiLowerChar_schemeChar (hall d hd)
  have hnl' : asciiLower (pyUrlsplit u.data).netloc ≠ [] :=
    asciiLower_ne_nil hnlne
  have hnlstop' : ∀ c ∈ asciiLower (pyUrlsplit u.data).netloc,
      c ≠ '/' ∧ c ≠ '?' ∧ c ≠ '#' := by
    intro c hc
    obtain ⟨d, hd, rfl⟩ := List.mem_map.mp hc
    obtain ⟨h1, h2, h3⟩ := hnetstop d hd
    exact ⟨asciiLowerChar_ne h1 (Or.inl (by decide)),
      asciiLowerChar_ne h2 (Or.inl (by decide)),
      asciiLowerChar_ne h3 (Or.inl (by decide))⟩
  have hpth' : pathTransform (pyUrlsplit u.data).path = [] ∨
      (pathTransform (pyUrlsplit u.data).path).head? = some '/' :=
    pathTransform_shape _ hpshape
  have hpthfree' : ∀ c ∈ pathTransform (pyUrlsplit u.data).path,
      c ≠ '?' ∧ c ≠ '#' :=
    fun c hc => ⟨hpathq c (pathTransform_mem _ c hc),
      hpathh c (pathTransform_mem _ c hc)⟩
  have hqfree' : ∀ c ∈ queryTransform (pyUrlsplit u.data).query,
      c ≠ '#' := by
    intro c hc
    rcases queryTransform_chars _ hqsfree c hc with h' | h' | h' | h'
    · subst h'; decide
    · subst h'; decide
    · subst h'; decide
    · exact hqh c h'
  have hge' : ∀ c ∈ asciiLower (pyUrlsplit u.data).netloc ++
      pathTransform (pyUrlsplit u.data).path ++
      queryTransform (pyUrlsplit u.data).query, 0x20 ≤ c.toNat := by
    intro c hc
    rcases List.mem_append.mp hc with hc | hc
    · rcases List.mem_append.mp hc with hc | hc
      · obtain ⟨d, hd, rfl⟩ := List.mem_map.mp hc
        exact (goodUrlChar_spec (asciiLowerChar_good (hnetgood d hd))).1
      · exact (goodUrlChar_spec (hpathgood _ (pathTransform_mem _ c hc))).1
    · rcases queryTransform_chars _ hqsfree c hc with h' | h' | h' | h'
      · subst h'; decide
      · subst h'; decide
      · subst h'; decide
      · exact (goodUrlChar_spec (hquerygood c h')).1
  have hparse1 : pyUrlparse u.data =
      { scheme := (pyUrlsplit u.data).scheme
        netloc := (pyUrlsplit u.data).netloc
        path := (pyUrlsplit u.data).path
        params := []
        query := (pyUrlsplit u.data).query
        fragment := (pyUrlsplit u.data).fragment } := by
    unfold pyUrlparse
    dsimp only
    rw [if_neg]
    rintro ⟨-, hsemi⟩
    exact (goodUrlChar_spec (hpathgood ';' hsemi)).2.2.2.1 rfl
  have hN1 : normalizeUrlList u.data =
      pyUrlunsplit (asciiLower (pyUrlsplit u.data).scheme)
        (asciiLower (pyUrlsplit u.data).netloc)
        (pathTransform (pyUrlsplit u.data).path)
        (queryTransform (pyUrlsplit u.data).query) [] := by
    rw [normalizeUrlList_eq u.data, hparse1]
    dsimp only
    unfold pyUrlunparse
    rw [if_neg (by simp)]
  have hsplit2 := pyUrlsplit_unsplit
    (asciiLower (pyUrlsplit u.data).scheme)
    (asciiLower (pyUrlsplit u.data).netloc)
    (pathTransform (pyUrlsplit u.data).path)
    (queryTransform (pyUrlsplit u.data).query)
    hnl' hnlstop' hschshape hpth' hpthfree' hqfree' hge'
  have hparse2 : pyUrlparse (normalizeUrlList u.data) =
      { scheme := asciiLower (pyUrlsplit u.data).scheme
        netloc := asciiLower (pyUrlsplit u.data).netloc
        path := pathTransform (pyUrlsplit u.data).path
        params := []
        query := queryTransform (pyUrlsplit u.data).query
        fragment := [] } := by
    unfold pyUrlparse
    rw [hN1, hsplit2]
    dsimp only
    rw [if_neg]
    rintro ⟨-, hsemi⟩
    exact (goodUrlChar_spec
      (hpathgood ';' (pathTransform_mem _ ';' hsemi))).2.2.2.1 rfl
  have hgoodA : ∀ kv ∈ sortByKey ((parseQs (pyUrlsplit u.data).query).filter
      (fun kv => ¬ asciiLower kv.1 ∈ TRACKING_PARAMS)), goodQueryEntry kv :=
    fun kv hkv => parseQs_entries _ hqsfree kv
      (List.mem_of_mem_filter ((sortByKey_perm _).mem_iff.mp hkv))
  have hnodupA : ((sortByKey ((parseQs (pyUrlsplit u.data).query).filter
      (fun kv => ¬ asciiLower kv.1 ∈ TRACKING_PARAMS))).map (·.1)).Nodup := by
    have h1 : (((parseQs (pyUrlsplit u.data).query).filter
        (fun kv => ¬ asciiLower kv.1 ∈ TRACKING_PARAMS)).map (·.1)).Nodup :=
      List.Nodup.sublist ((List.filter_sublist _).map _)
        (parseQs_keys_nodup _)
    exact ((sortByKey_perm _).map (·.1)).nodup_iff.mpr h1
  have hnotrackA : ∀ kv ∈ sortByKey ((parseQs (pyUrlsplit u.data).query).filter
      (fun kv => ¬ asciiLower kv.1 ∈ TRACKING_PARAMS)),
      asciiLower kv.1 ∉ TRACKING_PARAMS := by
    intro kv hkv
    exact of_decide_eq_true
      (List.mem_filter.mp ((sortByKey_perm _).mem_iff.mp hkv)).2
  have hqfix : queryTransform (queryTransform (pyUrlsplit u.data).query) =
      queryTransform (pyUrlsplit u.data).query := by
    have hbq : queryTransform (pyUrlsplit u.data).query =
        buildQuery (sortByKey ((parseQs (pyUrlsplit u.data).query).filter
          (fun kv => ¬ asciiLower kv.1 ∈ TRACKING_PARAMS))) := rfl
    rw [hbq]
    exact queryTransform_fix _ hgoodA hnodupA (sortByKey_pairwise _) hnotrackA
  have hN2 : normalizeUrlList (normalizeUrlList u.data) =
      normalizeUrlList u.data := by
    rw [normalizeUrlList_eq (normalizeUrlList u.data), hparse2]
    dsimp only
    rw [asciiLower_idem, asciiLower_idem, pathTransform_idem, hqfix]
    rw [normalizeUrlList_eq u.data, hparse1]
  constructor
  · refine String.ext ?_
    rw [normalize_url_data, normalize_url_data]
    exact hN2
  · intro k hk
    unfold queryKeysOf at hk
    rw [normalize_url_data, hparse2] at hk
    dsimp only at hk
    have hbq : queryTransform (pyUrlsplit u.data).query =
        buildQuery (sortByKey ((parseQs (pyUrlsplit u.data).query).filter
          (fun kv => ¬ asciiLower kv.1 ∈ TRACKING_PARAMS))) := rfl
    rw [hbq, parseQs_buildQuery _ hgoodA hnodupA, List.map_map] at hk
    obtain ⟨kv, hkv, hkvk⟩ := List.mem_map.mp hk
    rw [← hkvk]
    exact hnotrackA kv hkv

/-- C6 (counterexample to the literal claim): `normalize_url` is not
idempotent on every URL — a percent-escaped `&` in a query value is
decoded by `parse_qs` on the first pass and resurfaces as a separator on
the second pass, so the second pass reads (and strips) a `utm_source` key
that the first normalized URL still carries in its query string. -/
theorem C6_normalize_not_idempotent :
    normalize_url (normalize_url "http://x.com/?a=%26utm_source%3Dx") ≠
        normalize_url "http://x.com/?a=%26utm_source%3Dx" ∧
      "utm_source".data ∈
        queryKeysOf (normalize_url "http://x.com/?a=%26utm_source%3Dx") := by
  decide

/-- Witness: the amended C6 statement applies to the Scenario-A URL. -/
theorem C6_normalize_idempotent_amended_witness :
    SafeUrl "https://ACME.com/careers/?utm_source=x&b=2&a=1" ∧
      normalize_url (normalize_url
          "https://ACME.com/careers/?utm_source=x&b=2&a=1") =
        normalize_url "https://ACME.com/careers/?utm_source=x&b=2&a=1" :=
  ⟨by decide, (C6_normalize_idempotent_amended _ (by decide)).1⟩

end JobAgent
